import Mathlib

/-!
# Verification of the CMS `SignedData` schema and its canonical DER codec

This development embeds the CMS schema declared in `cms/src/content_info.rs`
and `cms/src/signed_data.rs` (RFC 5652 `ContentInfo` / `SignedData` /
`SignerInfo` and friends), together with the canonical DER codec those
declarations derive their behaviour from.  The schema (field order, context
tags, tag modes, optionality, the hand-written `ValueOrd` impls) is translated
from the Rust source; the DER codec core itself lives outside the two source
files, so it is modelled from the specification: tag/length/value framing with
definite minimal lengths, SET-OF canonical ordering, CHOICE dispatch by
leading tag, and explicit/implicit context tagging.

Byte strings are `List Nat`; real octets are values `< 256`, captured by the
executable predicate `byteOk` where decoder-side reasoning needs it.

For each schema type we prove the two codec laws:
* round-trip: decoding the encoding of a valid value yields the value back;
* canonicity: every accepted input is byte-identical to the canonical
  encoding of the value produced, so no alternate encoding is accepted.
-/

namespace CMS

/-- Byte strings: lists of octet values. -/
abbrev Bytes := List Nat

/-- All octets of a byte string are in range (`< 256`). -/
def byteOk (b : Bytes) : Bool := b.all (fun x => x < 256)

/-- Modelled from the spec (section 7): the error taxonomy of the codec.
`NonCanonicalInteger` covers rejection of non-minimal INTEGER content
octets (spec section 4.1), for which the section 7 taxonomy names no
dedicated member; `InvariantViolation` is the encode-side failure for a
caller-constructed schema-invariant violation (spec sections 4.5 and 7). -/
inductive Err where
  | MalformedLength
  | UnexpectedTag
  | MissingField
  | TrailingData
  | NonCanonicalSetOrder
  | InvalidVersion
  | InconsistentVersion
  | NonCanonicalInteger
  | InvariantViolation
deriving DecidableEq, Repr

/-- Equality of decode results is decidable (needed to evaluate the codec
laws on concrete inputs). -/
instance {e a : Type} [DecidableEq e] [DecidableEq a] : DecidableEq (Except e a) :=
  fun x y =>
    match x, y with
    | .ok u, .ok v =>
      if h : u = v then .isTrue (by rw [h]) else .isFalse (by simp [h])
    | .error u, .error v =>
      if h : u = v then .isTrue (by rw [h]) else .isFalse (by simp [h])
    | .ok _, .error _ => .isFalse (by simp)
    | .error _, .ok _ => .isFalse (by simp)

/-! ## Primitive TLV codec (spec section 4.1): definite lengths -/

/-- Big-endian base-256 digits of `n`, with no leading zero digit
(`[]` for `0`).  Fuel-indexed so that it is structurally recursive;
`fuel ≥ n` always suffices. -/
def lenDigitsF : Nat → Nat → List Nat
  | 0, _ => []
  | f + 1, n => if n = 0 then [] else lenDigitsF f (n / 256) ++ [n % 256]

/-- Big-endian base-256 digits of `n`, minimal (no leading zero). -/
def lenDigits (n : Nat) : List Nat := lenDigitsF n n

theorem lenDigitsF_congr (f g n : Nat) (hf : n ≤ f) (hg : n ≤ g) :
    lenDigitsF f n = lenDigitsF g n := by
  induction f using Nat.strong_induction_on generalizing g n with
  | _ f ih =>
    match f, g with
    | 0, g =>
      have hn : n = 0 := Nat.le_zero.mp hf
      subst hn
      cases g <;> simp [lenDigitsF]
    | f + 1, 0 =>
      have hn : n = 0 := Nat.le_zero.mp hg
      subst hn
      simp [lenDigitsF]
    | f + 1, g + 1 =>
      by_cases hn : n = 0
      · subst hn; simp [lenDigitsF]
      · simp only [lenDigitsF, if_neg hn]
        have hlt : n / 256 < n := Nat.div_lt_self (Nat.pos_of_ne_zero hn) (by decide : 1 < 256)
        have hd : n / 256 ≤ f := by omega
        have hd' : n / 256 ≤ g := by omega
        rw [ih f (Nat.lt_succ_self f) g (n / 256) hd hd']

/-- Unfolding equation for `lenDigits` on positive input. -/
theorem lenDigits_pos_eq (n : Nat) (h : 0 < n) :
    lenDigits n = lenDigits (n / 256) ++ [n % 256] := by
  unfold lenDigits
  match n, h with
  | n + 1, _ =>
    simp only [lenDigitsF, Nat.succ_ne_zero, if_neg, ite_false]
    have hd : (n + 1) / 256 ≤ n := by
      have := Nat.div_lt_self (Nat.succ_pos n) (by decide : 1 < 256)
      omega
    exact congrArg (· ++ [(n + 1) % 256])
      (lenDigitsF_congr n ((n+1)/256) ((n+1)/256) hd (Nat.le_refl _))

/-- Big-endian base-256 value of a digit string. -/
def foldVal (c : Bytes) : Nat := c.foldl (fun acc d => acc * 256 + d) 0

theorem foldVal_append_single (xs : List Nat) (d : Nat) :
    foldVal (xs ++ [d]) = foldVal xs * 256 + d := by
  simp [foldVal, List.foldl_append]

theorem lenDigits_zero : lenDigits 0 = [] := rfl

theorem foldVal_lenDigits (n : Nat) : foldVal (lenDigits n) = n := by
  induction n using Nat.strong_induction_on with
  | _ n ih =>
    by_cases hn : n = 0
    · subst hn; rfl
    · rw [lenDigits_pos_eq n (Nat.pos_of_ne_zero hn), foldVal_append_single,
        ih (n / 256) (Nat.div_lt_self (Nat.pos_of_ne_zero hn) (by decide : 1 < 256))]
      omega

theorem lenDigits_ne_nil (n : Nat) (h : 0 < n) : lenDigits n ≠ [] := by
  rw [lenDigits_pos_eq n h]
  simp

theorem headD_append_left (xs ys : List Nat) (d : Nat) (h : xs ≠ []) :
    (xs ++ ys).headD d = xs.headD d := by
  cases xs with
  | nil => exact absurd rfl h
  | cons a tl => simp

theorem lenDigits_headD_ne_zero (n : Nat) (h : 0 < n) : (lenDigits n).headD 0 ≠ 0 := by
  induction n using Nat.strong_induction_on with
  | _ n ih =>
    rw [lenDigits_pos_eq n h]
    by_cases hq : n / 256 = 0
    · rw [hq, lenDigits_zero]
      simp only [List.nil_append, List.headD_cons]
      omega
    · have hqpos : 0 < n / 256 := Nat.pos_of_ne_zero hq
      rw [headD_append_left _ _ _ (lenDigits_ne_nil _ hqpos)]
      exact ih (n / 256) (Nat.div_lt_self h (by decide : 1 < 256)) hqpos

theorem lenDigits_lt_256 (n : Nat) : ∀ d ∈ lenDigits n, d < 256 := by
  induction n using Nat.strong_induction_on with
  | _ n ih =>
    by_cases hn : n = 0
    · subst hn; simp [lenDigits_zero]
    · rw [lenDigits_pos_eq n (Nat.pos_of_ne_zero hn)]
      intro d hd
      rcases List.mem_append.mp hd with h1 | h2
      · exact ih (n / 256) (Nat.div_lt_self (Nat.pos_of_ne_zero hn) (by decide : 1 < 256)) d h1
      · simp only [List.mem_singleton] at h2
        subst h2
        exact Nat.mod_lt n (by decide)

theorem foldl_acc_ge (xs : List Nat) (acc : Nat) :
    acc ≤ List.foldl (fun a d => a * 256 + d) acc xs := by
  induction xs generalizing acc with
  | nil => exact Nat.le_refl acc
  | cons x tl ih =>
    calc acc ≤ acc * 256 + x := by omega
    _ ≤ List.foldl (fun a d => a * 256 + d) (acc * 256 + x) tl := ih _

theorem foldVal_pos (x : Nat) (xs : List Nat) (hx : x ≠ 0) : 0 < foldVal (x :: xs) := by
  have : foldVal (x :: xs) = List.foldl (fun a d => a * 256 + d) x xs := by
    simp [foldVal]
  rw [this]
  have := foldl_acc_ge xs x
  omega

/-- Minimal big-endian digit strings round-trip through their value. -/
theorem lenDigits_foldVal (ds : List Nat) (hne : ds ≠ []) (hhd : ds.headD 0 ≠ 0)
    (hlt : ∀ d ∈ ds, d < 256) : lenDigits (foldVal ds) = ds := by
  induction ds using List.reverseRecOn with
  | nil => exact absurd rfl hne
  | append_singleton xs d ih =>
    rw [foldVal_append_single]
    cases xs with
    | nil =>
      have hd0 : d ≠ 0 := by simpa using hhd
      have hdlt : d < 256 := hlt d (by simp)
      have hfv : foldVal ([] : List Nat) = 0 := rfl
      rw [hfv]
      have hpos : 0 < 0 * 256 + d := by omega
      rw [lenDigits_pos_eq _ hpos]
      have h1 : (0 * 256 + d) / 256 = 0 := by omega
      have h2 : (0 * 256 + d) % 256 = d := by omega
      rw [h1, h2, lenDigits_zero]
    | cons a tl =>
      have hhd' : (a :: tl).headD 0 ≠ 0 := by
        rw [headD_append_left (a :: tl) [d] 0 (by simp)] at hhd
        exact hhd
      have hva : 0 < foldVal (a :: tl) := foldVal_pos a tl (by simpa using hhd')
      have hdlt : d < 256 := hlt d (by simp)
      have hpos : 0 < foldVal (a :: tl) * 256 + d := by
        have := hva; omega
      rw [lenDigits_pos_eq _ hpos]
      have h1 : (foldVal (a :: tl) * 256 + d) / 256 = foldVal (a :: tl) := by
        omega
      have h2 : (foldVal (a :: tl) * 256 + d) % 256 = d := by
        omega
      rw [h1, h2, ih (by simp) hhd' (fun x hx => hlt x (List.mem_append_left _ hx))]

theorem foldl_acc_lb (xs : List Nat) (acc : Nat) :
    acc * 256 ^ xs.length ≤ List.foldl (fun a d => a * 256 + d) acc xs := by
  induction xs generalizing acc with
  | nil => simp
  | cons x tl ih =>
    have h1 : acc * 256 ^ (x :: tl).length = (acc * 256) * 256 ^ tl.length := by
      simp [List.length_cons, Nat.pow_succ]; ring
    have h2 : (acc * 256) * 256 ^ tl.length ≤ (acc * 256 + x) * 256 ^ tl.length :=
      Nat.mul_le_mul_right _ (by omega)
    calc acc * 256 ^ (x :: tl).length = (acc * 256) * 256 ^ tl.length := h1
    _ ≤ (acc * 256 + x) * 256 ^ tl.length := h2
    _ ≤ List.foldl (fun a d => a * 256 + d) (acc * 256 + x) tl := ih _

theorem foldVal_lb (x : Nat) (xs : List Nat) : x * 256 ^ xs.length ≤ foldVal (x :: xs) := by
  have : foldVal (x :: xs) = List.foldl (fun a d => a * 256 + d) x xs := by simp [foldVal]
  rw [this]
  exact foldl_acc_lb xs x

theorem foldl_acc_ub (xs : List Nat) (acc : Nat) (h : ∀ d ∈ xs, d < 256) :
    List.foldl (fun a d => a * 256 + d) acc xs < (acc + 1) * 256 ^ xs.length := by
  induction xs generalizing acc with
  | nil => simp
  | cons x tl ih =>
    have hx : x < 256 := h x (List.mem_cons_self x tl)
    have h1 : List.foldl (fun a d => a * 256 + d) (acc * 256 + x) tl
        < (acc * 256 + x + 1) * 256 ^ tl.length :=
      ih _ (fun d hd => h d (List.mem_cons_of_mem _ hd))
    have h2 : (acc * 256 + x + 1) * 256 ^ tl.length ≤ ((acc + 1) * 256) * 256 ^ tl.length :=
      Nat.mul_le_mul_right _ (by omega)
    have h3 : ((acc + 1) * 256) * 256 ^ tl.length = (acc + 1) * 256 ^ (x :: tl).length := by
      simp [List.length_cons, Nat.pow_succ]; ring
    calc List.foldl (fun a d => a * 256 + d) acc (x :: tl)
        = List.foldl (fun a d => a * 256 + d) (acc * 256 + x) tl := by simp
    _ < (acc * 256 + x + 1) * 256 ^ tl.length := h1
    _ ≤ ((acc + 1) * 256) * 256 ^ tl.length := h2
    _ = (acc + 1) * 256 ^ (x :: tl).length := h3

theorem foldVal_ub (c : List Nat) (h : ∀ d ∈ c, d < 256) : foldVal c < 256 ^ c.length := by
  have := foldl_acc_ub c 0 h
  simpa [foldVal] using this

/-- DER definite length field: short form for `< 128`, minimal long form else. -/
def encodeLen (n : Nat) : Bytes :=
  if n < 128 then [n] else (128 + (lenDigits n).length) :: lenDigits n

/-- Modelled from the spec (section 4.1): decode a DER definite length,
rejecting the indefinite form and any non-minimal long form with
`MalformedLength`. -/
def decodeLen : Bytes → Except Err (Nat × Bytes)
  | [] => .error .MalformedLength
  | b :: rest =>
    if b < 128 then .ok (b, rest)
    else
      let k := b - 128
      if k = 0 then .error .MalformedLength
      else if k ≤ rest.length then
        if (rest.take k).headD 0 = 0 then .error .MalformedLength
        else if foldVal (rest.take k) < 128 then .error .MalformedLength
        else .ok (foldVal (rest.take k), rest.drop k)
      else .error .MalformedLength

/-- Round-trip of the length field. -/
theorem decodeLen_encodeLen (n : Nat) (r : Bytes) :
    decodeLen (encodeLen n ++ r) = .ok (n, r) := by
  by_cases hn : n < 128
  · simp [encodeLen, decodeLen, hn]
  · have hpos : 0 < n := by omega
    have hne : lenDigits n ≠ [] := lenDigits_ne_nil n hpos
    have hlen : 0 < (lenDigits n).length := List.length_pos.mpr hne
    simp only [encodeLen, if_neg hn, List.cons_append, decodeLen]
    rw [if_neg (by omega : ¬ 128 + (lenDigits n).length < 128)]
    rw [if_neg (by omega : ¬ 128 + (lenDigits n).length - 128 = 0)]
    have hk : 128 + (lenDigits n).length - 128 = (lenDigits n).length := by omega
    rw [hk]
    rw [if_pos (by simp : (lenDigits n).length ≤ (lenDigits n ++ r).length)]
    rw [List.take_left, List.drop_left]
    rw [if_neg (lenDigits_headD_ne_zero n hpos)]
    rw [foldVal_lenDigits]
    rw [if_neg (by omega : ¬ n < 128)]

/-- Canonicity of the length field: an accepted length was minimally encoded. -/
theorem decodeLen_canonical (b : Bytes) (n : Nat) (r : Bytes)
    (hb : byteOk b = true) (h : decodeLen b = .ok (n, r)) : b = encodeLen n ++ r := by
  match b with
  | [] => exact absurd h (by simp [decodeLen])
  | x :: rest =>
    simp only [decodeLen] at h
    by_cases hx : x < 128
    · rw [if_pos hx] at h
      simp only [Except.ok.injEq, Prod.mk.injEq] at h
      obtain ⟨h1, h2⟩ := h
      subst h1; subst h2
      simp [encodeLen, hx]
    · rw [if_neg hx] at h
      by_cases hk0 : x - 128 = 0
      · rw [if_pos hk0] at h; exact absurd h (by simp)
      · rw [if_neg hk0] at h
        by_cases hkl : x - 128 ≤ rest.length
        · rw [if_pos hkl] at h
          by_cases hhd : (rest.take (x - 128)).headD 0 = 0
          · rw [if_pos hhd] at h; exact absurd h (by simp)
          · rw [if_neg hhd] at h
            by_cases hsm : foldVal (rest.take (x - 128)) < 128
            · rw [if_pos hsm] at h; exact absurd h (by simp)
            · rw [if_neg hsm] at h
              simp only [Except.ok.injEq, Prod.mk.injEq] at h
              obtain ⟨h1, h2⟩ := h
              have hne : rest.take (x - 128) ≠ [] := by
                intro hc
                rw [hc] at hhd
                exact hhd rfl
              have hlt : ∀ d ∈ rest.take (x - 128), d < 256 := by
                intro d hd
                have hmem : d ∈ x :: rest := List.mem_cons_of_mem _ (List.mem_of_mem_take hd)
                have := (List.all_eq_true.mp hb) d hmem
                simpa using this
              have hdig : lenDigits (foldVal (rest.take (x - 128))) = rest.take (x - 128) :=
                lenDigits_foldVal _ hne hhd hlt
              have hxlt : x < 256 := by
                have := (List.all_eq_true.mp hb) x (List.mem_cons_self x rest)
                simpa using this
              have htklen : (rest.take (x - 128)).length = x - 128 :=
                List.length_take_of_le hkl
              rw [← h1]
              simp only [encodeLen, if_neg (by omega : ¬ foldVal (rest.take (x - 128)) < 128)]
              rw [hdig, htklen]
              have hx' : 128 + (x - 128) = x := by omega
              rw [hx', ← h2, List.cons_append, List.take_append_drop]
        · rw [if_neg hkl] at h
          exact absurd h (by simp)

/-- The length field always consumes at least one octet. -/
theorem decodeLen_consumes (b : Bytes) (n : Nat) (r : Bytes)
    (h : decodeLen b = .ok (n, r)) : r.length < b.length := by
  match b with
  | [] => exact absurd h (by simp [decodeLen])
  | x :: rest =>
    simp only [decodeLen] at h
    by_cases hx : x < 128
    · rw [if_pos hx] at h
      simp only [Except.ok.injEq, Prod.mk.injEq] at h
      obtain ⟨_, h2⟩ := h
      subst h2; simp
    · rw [if_neg hx] at h
      by_cases hk0 : x - 128 = 0
      · rw [if_pos hk0] at h; exact absurd h (by simp)
      · rw [if_neg hk0] at h
        by_cases hkl : x - 128 ≤ rest.length
        · rw [if_pos hkl] at h
          by_cases hhd : (rest.take (x - 128)).headD 0 = 0
          · rw [if_pos hhd] at h; exact absurd h (by simp)
          · rw [if_neg hhd] at h
            by_cases hsm : foldVal (rest.take (x - 128)) < 128
            · rw [if_pos hsm] at h; exact absurd h (by simp)
            · rw [if_neg hsm] at h
              simp only [Except.ok.injEq, Prod.mk.injEq] at h
              obtain ⟨_, h2⟩ := h
              subst h2
              simp only [List.length_drop, List.length_cons]
              omega
        · rw [if_neg hkl] at h; exact absurd h (by simp)

/-! ## TLV framing -/

/-- One TLV: a tag octet, the definite length of the content, the content. -/
def tlv (t : Nat) (c : Bytes) : Bytes := t :: (encodeLen c.length ++ c)

/-- Modelled from the spec (section 4.1): read one TLV off the front of the
input, returning the tag, the content octets and the unconsumed tail.
A claimed length running past the buffer is rejected. -/
def readTLV : Bytes → Except Err ((Nat × Bytes) × Bytes)
  | [] => .error .UnexpectedTag
  | t :: rest =>
    match decodeLen rest with
    | .error e => .error e
    | .ok (n, rest2) =>
      if n ≤ rest2.length then .ok ((t, rest2.take n), rest2.drop n)
      else .error .MalformedLength

theorem tlv_ne_nil (t : Nat) (c : Bytes) : tlv t c ≠ [] := by simp [tlv]

theorem byteOk_append (a b : Bytes) : byteOk (a ++ b) = (byteOk a && byteOk b) := by
  simp [byteOk, List.all_append]

theorem byteOk_join (l : List Bytes) : byteOk l.flatten = l.all byteOk := by
  induction l with
  | nil => rfl
  | cons x tl ih => simp [List.flatten, byteOk_append, ih]

/-- Round-trip of the TLV reader. -/
theorem readTLV_tlv (t : Nat) (c : Bytes) (r : Bytes) :
    readTLV (tlv t c ++ r) = .ok ((t, c), r) := by
  simp only [tlv, List.cons_append, List.append_assoc, readTLV]
  rw [decodeLen_encodeLen]
  simp only [if_pos (by simp : c.length ≤ (c ++ r).length)]
  rw [List.take_left, List.drop_left]

/-- Canonicity of the TLV reader: an accepted TLV is byte-identical to the
canonical framing of the tag and content it returned. -/
theorem readTLV_canonical (b : Bytes) (t : Nat) (c : Bytes) (r : Bytes)
    (hb : byteOk b = true) (h : readTLV b = .ok ((t, c), r)) : b = tlv t c ++ r := by
  match b with
  | [] => exact absurd h (by simp [readTLV])
  | x :: rest =>
    simp only [readTLV] at h
    split at h
    · exact absurd h (by simp)
    · rename_i n rest2 hdl
      split at h
      · rename_i hn
        simp only [Except.ok.injEq, Prod.mk.injEq] at h
        obtain ⟨⟨h1, h2⟩, h3⟩ := h
        have hbrest : byteOk rest = true := by
          have := byteOk_append [x] rest
          simp only [List.singleton_append] at this
          rw [this] at hb
          exact (Bool.and_eq_true_iff.mp hb).2
        have hcan : rest = encodeLen n ++ rest2 := decodeLen_canonical rest n rest2 hbrest hdl
        have hclen : c.length = n := by rw [← h2]; exact List.length_take_of_le hn
        subst h1
        rw [tlv, hclen, List.cons_append, List.append_assoc, hcan, ← h2, ← h3,
          List.take_append_drop]
      · exact absurd h (by simp)

/-- The TLV reader always consumes at least the tag and one length octet. -/
theorem readTLV_consumes (b : Bytes) (p : Nat × Bytes) (r : Bytes)
    (h : readTLV b = .ok (p, r)) : r.length + 2 ≤ b.length := by
  match b with
  | [] => exact absurd h (by simp [readTLV])
  | x :: rest =>
    simp only [readTLV] at h
    split at h
    · exact absurd h (by simp)
    · rename_i n rest2 hdl
      split at h
      · rename_i hn
        simp only [Except.ok.injEq, Prod.mk.injEq] at h
        obtain ⟨_, h3⟩ := h
        have hc := decodeLen_consumes rest n rest2 hdl
        have : r.length ≤ rest2.length := by
          rw [← h3]; simp
        simp only [List.length_cons]
        omega
      · exact absurd h (by simp)

/-! ## Re-splitting concatenated TLVs (spec section 4.3) -/

/-- Modelled from the spec (section 4.3): split a byte string into its
successive complete element TLVs.  Fuel-indexed structural recursion;
`fuel ≥ length` always suffices since each TLV consumes at least two
octets. -/
def splitTLVsF : Nat → Bytes → Except Err (List (Nat × Bytes))
  | _, [] => .ok []
  | 0, _ :: _ => .error .MalformedLength
  | f + 1, x :: xs =>
    match readTLV (x :: xs) with
    | .error e => .error e
    | .ok ((t, c), rest) =>
      match splitTLVsF f rest with
      | .error e => .error e
      | .ok tl => .ok ((t, c) :: tl)

/-- Split a byte string into its successive complete element TLVs. -/
def splitTLVs (b : Bytes) : Except Err (List (Nat × Bytes)) := splitTLVsF b.length b

/-- The canonical re-encoding of one split element. -/
def rawTLV (p : Nat × Bytes) : Bytes := tlv p.1 p.2

theorem splitTLVsF_step_err (f : Nat) (b : Bytes) (e : Err)
    (hne : b ≠ []) (hr : readTLV b = .error e) :
    splitTLVsF (f + 1) b = .error e := by
  match b with
  | x :: xs =>
    simp only [splitTLVsF]
    rw [hr]

theorem splitTLVsF_step_ok (f : Nat) (b : Bytes) (t : Nat) (c : Bytes) (rest : Bytes)
    (hne : b ≠ []) (hr : readTLV b = .ok ((t, c), rest)) :
    splitTLVsF (f + 1) b =
      (match splitTLVsF f rest with
       | .error e => .error e
       | .ok tl => .ok ((t, c) :: tl)) := by
  match b with
  | x :: xs =>
    simp only [splitTLVsF]
    rw [hr]

theorem splitTLVsF_congr (f : Nat) : ∀ (g : Nat) (b : Bytes), b.length ≤ f → b.length ≤ g →
    splitTLVsF f b = splitTLVsF g b := by
  induction f with
  | zero =>
    intro g b hf _
    have : b = [] := List.length_eq_zero.mp (Nat.le_zero.mp hf)
    subst this
    cases g <;> rfl
  | succ f ih =>
    intro g b hf hg
    match b with
    | [] => cases g <;> rfl
    | x :: xs =>
      match g, hg with
      | g + 1, hg' =>
        cases hr : readTLV (x :: xs) with
        | error e =>
          rw [splitTLVsF_step_err f _ e (by simp) hr,
            splitTLVsF_step_err g _ e (by simp) hr]
        | ok q =>
          obtain ⟨⟨t, c⟩, rest⟩ := q
          have hcons := readTLV_consumes (x :: xs) (t, c) rest hr
          simp only [List.length_cons] at hcons hf hg'
          rw [splitTLVsF_step_ok f _ t c rest (by simp) hr,
            splitTLVsF_step_ok g _ t c rest (by simp) hr,
            ih g rest (by omega) (by omega)]

theorem splitTLVs_tlv (t : Nat) (c : Bytes) (r : Bytes) :
    splitTLVs (tlv t c ++ r) =
      (match splitTLVs r with
       | .ok tl => .ok ((t, c) :: tl)
       | .error e => .error e) := by
  have hlen : (tlv t c ++ r).length = (encodeLen c.length ++ c ++ r).length + 1 := by
    simp [tlv]
  have hle : r.length ≤ (encodeLen c.length ++ c ++ r).length := by
    simp only [List.length_append]
    omega
  simp only [splitTLVs]
  rw [hlen, splitTLVsF_step_ok _ _ t c r (by simp [tlv]) (readTLV_tlv t c r),
    splitTLVsF_congr _ r.length r hle (Nat.le_refl _)]
  cases splitTLVsF r.length r <;> rfl

theorem splitTLVs_nil : splitTLVs [] = .ok [] := rfl

/-- Round-trip: re-splitting a concatenation of TLVs recovers each element. -/
theorem splitTLVs_join (ps : List (Nat × Bytes)) :
    splitTLVs (List.flatten (ps.map rawTLV)) = .ok ps := by
  induction ps with
  | nil => rfl
  | cons p tl ih =>
    obtain ⟨t, c⟩ := p
    simp only [List.map_cons, List.flatten_cons, rawTLV]
    rw [splitTLVs_tlv, ih]

theorem splitTLVsF_canonical (f : Nat) : ∀ (b : Bytes) (ps : List (Nat × Bytes)),
    b.length ≤ f → byteOk b = true → splitTLVsF f b = .ok ps →
    b = List.flatten (ps.map rawTLV) := by
  induction f with
  | zero =>
    intro b ps hf _ h
    have : b = [] := List.length_eq_zero.mp (Nat.le_zero.mp hf)
    subst this
    simp only [splitTLVsF, Except.ok.injEq] at h
    subst h
    rfl
  | succ f ih =>
    intro b ps hf hb h
    match b with
    | [] =>
      simp only [splitTLVsF, Except.ok.injEq] at h
      subst h
      rfl
    | x :: xs =>
      simp only [splitTLVsF] at h
      split at h
      · exact absurd h (by simp)
      · rename_i t c rest hr
        split at h
        · exact absurd h (by simp)
        · rename_i tl hs
          simp only [Except.ok.injEq] at h
          subst h
          have hcan := readTLV_canonical (x :: xs) t c rest hb hr
          have hcons := readTLV_consumes (x :: xs) (t, c) rest hr
          simp only [List.length_cons] at hcons hf
          have hbrest : byteOk rest = true := by
            rw [hcan, byteOk_append] at hb
            exact (Bool.and_eq_true_iff.mp hb).2
          have := ih rest tl (by omega) hbrest hs
          simp only [List.map_cons, List.flatten_cons, rawTLV]
          rw [hcan, this]

/-- Canonicity of re-splitting: an accepted input is exactly the
concatenation of the canonical encodings of the returned elements. -/
theorem splitTLVs_canonical (b : Bytes) (ps : List (Nat × Bytes))
    (hb : byteOk b = true) (h : splitTLVs b = .ok ps) :
    b = List.flatten (ps.map rawTLV) :=
  splitTLVsF_canonical b.length b ps (Nat.le_refl _) hb h

/-! ## Canonical SET-OF ordering (spec section 4.3) -/

/-- Unsigned lexicographic (octet) comparison of byte strings. -/
def byteCmp : Bytes → Bytes → Ordering
  | [], [] => .eq
  | [], _ :: _ => .lt
  | _ :: _, [] => .gt
  | a :: as, b :: bs => if a < b then .lt else if b < a then .gt else byteCmp as bs

/-- `x` precedes or equals `y` in unsigned lexicographic order. -/
def ble (x y : Bytes) : Prop := byteCmp x y ≠ Ordering.gt

instance : DecidableRel ble := fun x y => by
  unfold ble
  infer_instance

theorem byteCmp_eq_iff (x y : Bytes) : byteCmp x y = .eq ↔ x = y := by
  induction x generalizing y with
  | nil => cases y <;> simp [byteCmp]
  | cons a as ih =>
    cases y with
    | nil => simp [byteCmp]
    | cons b bs =>
      simp only [byteCmp]
      by_cases hab : a < b
      · simp [if_pos hab]
        omega
      · rw [if_neg hab]
        by_cases hba : b < a
        · simp [if_pos hba]
          omega
        · rw [if_neg hba]
          have hab' : a = b := by omega
          subst hab'
          simp [ih bs]

theorem byteCmp_swap (x y : Bytes) : byteCmp y x = (byteCmp x y).swap := by
  induction x generalizing y with
  | nil => cases y <;> rfl
  | cons a as ih =>
    cases y with
    | nil => rfl
    | cons b bs =>
      simp only [byteCmp]
      split_ifs <;> first | rfl | omega | exact ih bs

theorem ble_trans (x y z : Bytes) (h1 : ble x y) (h2 : ble y z) : ble x z := by
  induction x generalizing y z with
  | nil =>
    cases z with
    | nil => simp [ble, byteCmp]
    | cons c cs => simp [ble, byteCmp]
  | cons a as ih =>
    cases y with
    | nil => simp [ble, byteCmp] at h1
    | cons b bs =>
      cases z with
      | nil => simp [ble, byteCmp] at h2
      | cons c cs =>
        simp only [ble, byteCmp] at h1 h2 ⊢
        split_ifs at h1 h2 ⊢ <;>
          first
          | exact absurd rfl h1
          | exact absurd rfl h2
          | decide
          | (exfalso; omega)
          | exact ih bs cs h1 h2

theorem ble_total (x y : Bytes) : ble x y ∨ ble y x := by
  by_cases h : byteCmp x y = .gt
  · right
    rw [ble, byteCmp_swap, h]
    simp [Ordering.swap]
  · exact Or.inl h

theorem ble_antisymm (x y : Bytes) (h1 : ble x y) (h2 : ble y x) : x = y := by
  rw [ble, byteCmp_swap] at h2
  rw [ble] at h1
  have : byteCmp x y = .eq := by
    cases hc : byteCmp x y with
    | lt => rw [hc] at h2; simp [Ordering.swap] at h2
    | eq => rfl
    | gt => exact absurd hc h1
  exact (byteCmp_eq_iff x y).mp this

instance : IsTrans Bytes ble := ⟨ble_trans⟩
instance : IsTotal Bytes ble := ⟨ble_total⟩
instance : IsAntisymm Bytes ble := ⟨ble_antisymm⟩

/-- The decoder-side check (spec section 4.3): successive element TLVs are
in ascending order, checked on each adjacent pair. -/
def ordered : List Bytes → Bool
  | [] => true
  | [_] => true
  | x :: y :: tl => (byteCmp x y ≠ Ordering.gt) && ordered (y :: tl)

theorem ordered_iff_chain (l : List Bytes) : ordered l = true ↔ List.Chain' ble l := by
  match l with
  | [] => simp [ordered]
  | [x] => simp [ordered]
  | x :: y :: tl =>
    rw [List.chain'_cons, ← ordered_iff_chain (y :: tl)]
    simp [ordered, ble]

theorem ordered_iff_sorted (l : List Bytes) : ordered l = true ↔ List.Sorted ble l := by
  rw [ordered_iff_chain, List.chain'_iff_pairwise]
  exact Iff.rfl

/-- Encoder-side canonical ordering (spec section 4.3): sort the encoded
element TLVs by unsigned lexicographic order. -/
def sortBytes (l : List Bytes) : List Bytes := List.insertionSort ble l

/-- Value octets of a SET-OF: the sorted element TLVs, concatenated. -/
def setValue (l : List Bytes) : Bytes := (sortBytes l).flatten

theorem sortBytes_of_ordered (l : List Bytes) (h : ordered l = true) : sortBytes l = l :=
  ((ordered_iff_sorted l).mp h).insertionSort_eq

theorem setValue_of_ordered (l : List Bytes) (h : ordered l = true) :
    setValue l = l.flatten := by
  rw [setValue, sortBytes_of_ordered l h]

/-! ## Generic SET-OF content codec (spec section 4.3) -/

/-- Run a stream decoder on a byte string that must be consumed entirely
(`TrailingData` otherwise).  Also the top-level decode entry point
(spec section 4.2: trailing bytes after a complete structure are an error). -/
def decFull {E : Type} (dec : Bytes → Except Err (E × Bytes)) (b : Bytes) : Except Err E :=
  match dec b with
  | .error e => .error e
  | .ok (e, r) => if r = [] then .ok e else .error .TrailingData

/-- Map a fallible decoder over a list, failing on the first error. -/
def mapME {E F : Type} (f : E → Except Err F) : List E → Except Err (List F)
  | [] => .ok []
  | x :: xs =>
    match f x with
    | .error e => .error e
    | .ok y =>
      match mapME f xs with
      | .error e => .error e
      | .ok ys => .ok (y :: ys)

/-- Modelled from the spec (section 4.3): decode SET-OF value octets by
re-splitting them into successive element TLVs, validating that the
sequence is already in ascending lexicographic order (any out-of-order
adjacent pair fails with `NonCanonicalSetOrder`), then decoding each
element TLV. -/
def decSetContent {E : Type} (dec : Bytes → Except Err (E × Bytes)) (c : Bytes) :
    Except Err (List E) :=
  match splitTLVs c with
  | .error e => .error e
  | .ok ps =>
    if ordered (ps.map rawTLV) then mapME (fun p => decFull dec (rawTLV p)) ps
    else .error .NonCanonicalSetOrder

theorem decFull_ok {E : Type} (dec : Bytes → Except Err (E × Bytes)) (b : Bytes) (e : E)
    (h : decFull dec b = .ok e) : dec b = .ok (e, []) := by
  unfold decFull at h
  split at h
  · exact absurd h (by simp)
  · rename_i e' r heq
    split at h
    · rename_i hr
      simp only [Except.ok.injEq] at h
      subst h
      subst hr
      exact heq
    · exact absurd h (by simp)

theorem mapME_ok_cons {E F : Type} (f : E → Except Err F) (x : E) (xs : List E)
    (ys : List F) (h : mapME f (x :: xs) = .ok ys) :
    ∃ y ys', f x = .ok y ∧ mapME f xs = .ok ys' ∧ ys = y :: ys' := by
  simp only [mapME] at h
  split at h
  · exact absurd h (by simp)
  · rename_i y hy
    split at h
    · exact absurd h (by simp)
    · rename_i ys' hys
      simp only [Except.ok.injEq] at h
      exact ⟨y, ys', hy, hys, h.symm⟩

/-- An out-of-order adjacent pair of element TLVs makes the SET-OF decoder
fail with `NonCanonicalSetOrder`. -/
theorem decSetContent_order_fail {E : Type} (dec : Bytes → Except Err (E × Bytes))
    (c : Bytes) (ps : List (Nat × Bytes)) (hs : splitTLVs c = .ok ps)
    (hord : ordered (ps.map rawTLV) = false) :
    decSetContent dec c = .error .NonCanonicalSetOrder := by
  unfold decSetContent
  rw [hs]
  simp [hord]

theorem splitTLVs_flatten_map {E : Type} (enc : E → Bytes) (l : List E)
    (hshape : ∀ e ∈ l, ∃ t c, enc e = tlv t c) :
    ∃ ps, splitTLVs (l.map enc).flatten = .ok ps ∧ ps.map rawTLV = l.map enc := by
  induction l with
  | nil => exact ⟨[], rfl, rfl⟩
  | cons e es ih =>
    obtain ⟨t, c, het⟩ := hshape e (List.mem_cons_self e es)
    obtain ⟨ps', hs, hm⟩ := ih (fun x hx => hshape x (List.mem_cons_of_mem _ hx))
    refine ⟨(t, c) :: ps', ?_, ?_⟩
    · simp only [List.map_cons, List.flatten_cons, het]
      rw [splitTLVs_tlv, hs]
    · simp only [List.map_cons, rawTLV]
      rw [hm, het]

theorem mapME_decFull {E : Type} (dec : Bytes → Except Err (E × Bytes)) (enc : E → Bytes)
    (l : List E) (ps : List (Nat × Bytes)) (hm : ps.map rawTLV = l.map enc)
    (hdec : ∀ e ∈ l, dec (enc e) = .ok (e, ([] : Bytes))) :
    mapME (fun p => decFull dec (rawTLV p)) ps = .ok l := by
  induction ps generalizing l with
  | nil =>
    cases l with
    | nil => rfl
    | cons e es => simp at hm
  | cons p ps' ih =>
    cases l with
    | nil => simp at hm
    | cons e es =>
      simp only [List.map_cons, List.cons.injEq] at hm
      obtain ⟨h1, h2⟩ := hm
      simp only [mapME]
      have hde : decFull dec (rawTLV p) = .ok e := by
        unfold decFull
        rw [h1, hdec e (List.mem_cons_self e es)]
        rfl
      rw [hde, ih es h2 (fun x hx => hdec x (List.mem_cons_of_mem _ hx))]

/-- Round-trip of the SET-OF content codec: a list of valid elements,
already in canonical order, is recovered from its canonical encoding. -/
theorem decSetContent_rt {E : Type} (dec : Bytes → Except Err (E × Bytes))
    (enc : E → Bytes) (l : List E)
    (hdec : ∀ e ∈ l, dec (enc e) = .ok (e, ([] : Bytes)))
    (hshape : ∀ e ∈ l, ∃ t c, enc e = tlv t c)
    (hord : ordered (l.map enc) = true) :
    decSetContent dec (setValue (l.map enc)) = .ok l := by
  rw [setValue_of_ordered _ hord]
  obtain ⟨ps, hs, hm⟩ := splitTLVs_flatten_map enc l hshape
  have hred : decSetContent dec (l.map enc).flatten =
      (if ordered (ps.map rawTLV) then mapME (fun p => decFull dec (rawTLV p)) ps
       else .error .NonCanonicalSetOrder) := by
    unfold decSetContent
    rw [hs]
  rw [hred, hm, if_pos hord]
  exact mapME_decFull dec enc l ps hm hdec

theorem mapME_decFull_inv {E : Type} (dec : Bytes → Except Err (E × Bytes))
    (enc : E → Bytes) (P : E → Bool)
    (hcan : ∀ b e r, byteOk b = true → dec b = .ok (e, r) → P e = true ∧ b = enc e ++ r) :
    ∀ (ps : List (Nat × Bytes)) (l : List E),
    (∀ p ∈ ps, byteOk (rawTLV p) = true) →
    mapME (fun p => decFull dec (rawTLV p)) ps = .ok l →
    ps.map rawTLV = l.map enc ∧ ∀ e ∈ l, P e = true := by
  intro ps
  induction ps with
  | nil =>
    intro l _ h
    simp only [mapME, Except.ok.injEq] at h
    subst h
    exact ⟨rfl, by simp⟩
  | cons p ps' ih =>
    intro l hok h
    obtain ⟨y, ys, hy, hys, hl⟩ := mapME_ok_cons _ p ps' l h
    subst hl
    have hdp := decFull_ok dec (rawTLV p) y hy
    have hbp := hok p (List.mem_cons_self p ps')
    obtain ⟨hP, heq⟩ := hcan (rawTLV p) y [] hbp hdp
    rw [List.append_nil] at heq
    obtain ⟨hmap, hPs⟩ := ih ys (fun q hq => hok q (List.mem_cons_of_mem _ hq)) hys
    constructor
    · simp only [List.map_cons, hmap, heq]
    · intro e he
      rcases List.mem_cons.mp he with he1 | he2
      · subst he1; exact hP
      · exact hPs e he2

/-- Canonicity of the SET-OF content codec: an accepted SET-OF value is
exactly the concatenation of the canonical element encodings, the
elements are valid, and they are in canonical order. -/
theorem decSetContent_can {E : Type} (dec : Bytes → Except Err (E × Bytes))
    (enc : E → Bytes) (P : E → Bool)
    (hcan : ∀ b e r, byteOk b = true → dec b = .ok (e, r) → P e = true ∧ b = enc e ++ r)
    (c : Bytes) (l : List E) (hb : byteOk c = true) (h : decSetContent dec c = .ok l) :
    (∀ e ∈ l, P e = true) ∧ ordered (l.map enc) = true ∧ c = (l.map enc).flatten := by
  unfold decSetContent at h
  split at h
  · exact absurd h (by simp)
  · rename_i ps hs
    split at h
    · rename_i hord
      have hc : c = (ps.map rawTLV).flatten := splitTLVs_canonical c ps hb hs
      have hokall : ∀ p ∈ ps, byteOk (rawTLV p) = true := by
        intro p hp
        have hall : (ps.map rawTLV).all byteOk = true := by
          rw [← byteOk_join, ← hc]
          exact hb
        exact (List.all_eq_true.mp hall) (rawTLV p) (List.mem_map_of_mem _ hp)
      obtain ⟨hmap, hPs⟩ := mapME_decFull_inv dec enc P hcan ps l hokall h
      refine ⟨hPs, ?_, ?_⟩
      · rw [← hmap]; exact hord
      · rw [hc, hmap]
    · exact absurd h (by simp)

/-! ## Schema element types

Tags used by this schema (hex): `0x30` universal constructed SEQUENCE,
`0x31` universal constructed SET, `0x02` INTEGER, `0x04` OCTET STRING,
`0x06` OBJECT IDENTIFIER, `0xA0`/`0xA1` context-specific constructed
tags number 0/1. -/

/-- An arbitrary DER value held as its tag and content octets (the Rust
`AnyRef`). -/
structure AnyV where
  tag : Nat
  content : Bytes
deriving DecidableEq, Repr

def encAnyV (a : AnyV) : Bytes := tlv a.tag a.content

/-- Error-propagating sequencing of decode steps. -/
def eBind {A B : Type} (x : Except Err A) (f : A → Except Err B) : Except Err B :=
  match x with
  | .error e => .error e
  | .ok a => f a

theorem eBind_ok {A B : Type} (a : A) (f : A → Except Err B) : eBind (.ok a) f = f a := rfl

theorem eBind_error {A B : Type} (e : Err) (f : A → Except Err B) :
    eBind (.error e) f = .error e := rfl

/-- Modelled from the spec: decoder for an arbitrary-type value (`AnyRef`):
it accepts exactly one complete TLV of any tag. -/
def decAnyV (b : Bytes) : Except Err (AnyV × Bytes) :=
  eBind (readTLV b) (fun p => .ok (⟨p.1.1, p.1.2⟩, p.2))

/-- The `CmsVersion` type from `content_info.rs`: a closed enumeration of
the integers {0..5}, encoded as a DER INTEGER. -/
inductive CmsVersion where
  | V0
  | V1
  | V2
  | V3
  | V4
  | V5
deriving DecidableEq, Repr

/-- The discriminant of a `CmsVersion` (`#[repr(u8)]` in the source:
`V0 = 0, ..., V5 = 5`). -/
def CmsVersion.disc : CmsVersion → Nat
  | .V0 => 0
  | .V1 => 1
  | .V2 => 2
  | .V3 => 3
  | .V4 => 4
  | .V5 => 5

/-- A `CmsVersion` encodes as a DER INTEGER with one content octet. -/
def encCmsVersion (v : CmsVersion) : Bytes := tlv 2 [v.disc]

/-- Modelled from the spec (section 4.1): INTEGER content octets are
minimal two's complement: no superfluous leading `0x00` or `0xFF`. -/
def minimalIntContent : Bytes → Bool
  | [] => false
  | [_] => true
  | b0 :: b1 :: _ =>
    !(b0 == 0 && decide (b1 < 128)) && !(b0 == 255 && decide (128 ≤ b1))

/-- The signed value denoted by INTEGER content octets (two's complement,
big-endian). -/
def intContentVal : Bytes → Int
  | [] => 0
  | b0 :: tl =>
    if b0 < 128 then (foldVal (b0 :: tl) : Int)
    else (foldVal (b0 :: tl) : Int) - (256 : Int) ^ (b0 :: tl).length

/-- The closed-enum validity check of `CmsVersion` (spec section 4.1):
minimal INTEGER content octets outside {0..5} fail with `InvalidVersion`. -/
def versionFromContent : Bytes → Except Err CmsVersion
  | [0] => .ok .V0
  | [1] => .ok .V1
  | [2] => .ok .V2
  | [3] => .ok .V3
  | [4] => .ok .V4
  | [5] => .ok .V5
  | _ => .error .InvalidVersion



/-- The x509 `SubjectKeyIdentifier`: a newtype of OCTET STRING, held as
its content octets. -/
structure SubjectKeyIdentifier where
  content : Bytes
deriving DecidableEq, Repr

def encSubjectKeyIdentifier (s : SubjectKeyIdentifier) : Bytes := tlv 4 s.content

/-- Modelled from the spec (section 6 collaborator interface): the
`IssuerAndSerialNumber` SEQUENCE, with the issuer `Name` held opaquely as
one complete TLV and the serial INTEGER held as its content octets. -/
structure IssuerAndSerialNumber where
  issuer : AnyV
  serial : Bytes
deriving DecidableEq, Repr

def encIssuerAndSerialNumberContent (i : IssuerAndSerialNumber) : Bytes :=
  encAnyV i.issuer ++ tlv 2 i.serial

def encIssuerAndSerialNumber (i : IssuerAndSerialNumber) : Bytes :=
  tlv 0x30 (encIssuerAndSerialNumberContent i)

/-- Modelled from the spec (section 6 collaborator interface): the
`AlgorithmIdentifier` SEQUENCE: an OBJECT IDENTIFIER (content octets held
opaquely) plus optional parameters of arbitrary type. -/
structure AlgorithmIdentifier where
  oid : Bytes
  params : Option AnyV
deriving DecidableEq, Repr

/-- Encode the optional parameters of an `AlgorithmIdentifier`: an absent
OPTIONAL field produces zero bytes. -/
def encOptAnyV : Option AnyV → Bytes
  | none => []
  | some p => encAnyV p

def encAlgorithmIdentifierContent (a : AlgorithmIdentifier) : Bytes :=
  tlv 6 a.oid ++ encOptAnyV a.params

def encAlgorithmIdentifier (a : AlgorithmIdentifier) : Bytes :=
  tlv 0x30 (encAlgorithmIdentifierContent a)

/-- The `SignerIdentifier` CHOICE from `signed_data.rs`:
`IssuerAndSerialNumber` untagged (leading tag SEQUENCE `0x30`) or
`SubjectKeyIdentifier` with EXPLICIT context tag 0 (leading tag `0xA0`). -/
inductive SignerIdentifier where
  | IssuerAndSerialNumber (v : IssuerAndSerialNumber)
  | SubjectKeyIdentifier (v : SubjectKeyIdentifier)
deriving DecidableEq, Repr

def encSignerIdentifier : SignerIdentifier → Bytes
  | .IssuerAndSerialNumber i => encIssuerAndSerialNumber i
  | .SubjectKeyIdentifier s => tlv 0xA0 (encSubjectKeyIdentifier s)

/-- Modelled from the spec (section 6 collaborator interface): an
`Attribute` SEQUENCE: an attribute type OID plus a SET OF arbitrary
values. -/
structure Attribute where
  oid : Bytes
  values : List AnyV
deriving DecidableEq, Repr

def encAttributeContent (a : Attribute) : Bytes :=
  tlv 6 a.oid ++ tlv 0x31 (setValue (a.values.map encAnyV))

def encAttribute (a : Attribute) : Bytes := tlv 0x30 (encAttributeContent a)

/-- Canonically encode an OPTIONAL IMPLICIT-context-tagged SET-OF field:
an absent field produces zero bytes. -/
def encOptSet {E : Type} (t : Nat) (enc : E → Bytes) : Option (List E) → Bytes
  | none => []
  | some l => tlv t (setValue (l.map enc))

/-- The `SignerInfo` SEQUENCE from `signed_data.rs`, fields in declared
order; `signed_attrs` has IMPLICIT context tag 0 and `unsigned_attrs`
IMPLICIT context tag 1, both OPTIONAL constructed. -/
structure SignerInfo where
  version : CmsVersion
  sid : SignerIdentifier
  digest_alg : AlgorithmIdentifier
  signed_attrs : Option (List Attribute)
  signature_algorithm : AlgorithmIdentifier
  signature : Bytes
  unsigned_attrs : Option (List Attribute)
deriving DecidableEq, Repr

def encSignerInfoContent (si : SignerInfo) : Bytes :=
  encCmsVersion si.version ++
  encSignerIdentifier si.sid ++
  encAlgorithmIdentifier si.digest_alg ++
  encOptSet 0xA0 encAttribute si.signed_attrs ++
  encAlgorithmIdentifier si.signature_algorithm ++
  tlv 4 si.signature ++
  encOptSet 0xA1 encAttribute si.unsigned_attrs

def encSignerInfo (si : SignerInfo) : Bytes := tlv 0x30 (encSignerInfoContent si)

/-- The `EncapsulatedContentInfo` SEQUENCE from `signed_data.rs`:
`econtent_type` OBJECT IDENTIFIER, then OPTIONAL `econtent` with EXPLICIT
context tag 0. -/
structure EncapsulatedContentInfo where
  econtent_type : Bytes
  econtent : Option AnyV
deriving DecidableEq, Repr

/-- Encode the optional `econtent` field: absent produces zero bytes;
present wraps the inner TLV unchanged in an EXPLICIT context-0 tag. -/
def encOptEContent : Option AnyV → Bytes
  | none => []
  | some a => tlv 0xA0 (encAnyV a)

def encEncapsulatedContentInfoContent (e : EncapsulatedContentInfo) : Bytes :=
  tlv 6 e.econtent_type ++ encOptEContent e.econtent

def encEncapsulatedContentInfo (e : EncapsulatedContentInfo) : Bytes :=
  tlv 0x30 (encEncapsulatedContentInfoContent e)

/-- The `ContentInfo` SEQUENCE from `content_info.rs`: `content_type`
OBJECT IDENTIFIER, then mandatory `content` of arbitrary type with
EXPLICIT context tag 0. -/
structure ContentInfo where
  content_type : Bytes
  content : AnyV
deriving DecidableEq, Repr

def encContentInfoContent (ci : ContentInfo) : Bytes :=
  tlv 6 ci.content_type ++ tlv 0xA0 (encAnyV ci.content)

def encContentInfo (ci : ContentInfo) : Bytes := tlv 0x30 (encContentInfoContent ci)

/-- The `SignedData` SEQUENCE from `signed_data.rs`, fields in declared
order: `digest_algorithms` and `signer_infos` are SET-OF fields with the
universal SET tag; `certificates` (IMPLICIT context tag 0) and `crls`
(IMPLICIT context tag 1) are OPTIONAL SET-OF fields whose elements
(`CertificateChoices` / `RevocationInfoChoice`, handled by collaborator
codecs per spec section 6) are held opaquely as complete TLVs. -/
structure SignedData where
  version : CmsVersion
  digest_algorithms : List AlgorithmIdentifier
  encap_content_info : EncapsulatedContentInfo
  certificates : Option (List AnyV)
  crls : Option (List AnyV)
  signer_infos : List SignerInfo
deriving DecidableEq, Repr

def encSignedDataContent (sd : SignedData) : Bytes :=
  encCmsVersion sd.version ++
  tlv 0x31 (setValue (sd.digest_algorithms.map encAlgorithmIdentifier)) ++
  encEncapsulatedContentInfo sd.encap_content_info ++
  encOptSet 0xA0 encAnyV sd.certificates ++
  encOptSet 0xA1 encAnyV sd.crls ++
  tlv 0x31 (setValue (sd.signer_infos.map encSignerInfo))

def encSignedData (sd : SignedData) : Bytes := tlv 0x30 (encSignedDataContent sd)

/-! ## Decoders (spec sections 4.2 and 4.4) -/

/-- Modelled from the spec (section 4.2): decode a SEQUENCE: the outer tag
must be the universal constructed SEQUENCE tag `0x30`; the fields are
decoded from the content octets, which must be consumed exactly. -/
def decSeq {X : Type} (fields : Bytes → Except Err X) (b : Bytes) :
    Except Err (X × Bytes) :=
  eBind (readTLV b) (fun p =>
    if p.1.1 = 0x30 then
      eBind (fields p.1.2) (fun x => .ok (x, p.2))
    else .error .UnexpectedTag)

def decIssuerAndSerialNumberFields (c : Bytes) : Except Err IssuerAndSerialNumber :=
  eBind (decAnyV c) (fun p =>
    eBind (readTLV p.2) (fun q =>
      if q.1.1 = 2 then
        if q.2 = [] then .ok ⟨p.1, q.1.2⟩ else .error .TrailingData
      else .error .UnexpectedTag))

def decIssuerAndSerialNumber : Bytes → Except Err (IssuerAndSerialNumber × Bytes) :=
  decSeq decIssuerAndSerialNumberFields

def decAlgorithmIdentifierFields (c : Bytes) : Except Err AlgorithmIdentifier :=
  eBind (readTLV c) (fun p =>
    if p.1.1 = 6 then
      if p.2 = [] then .ok ⟨p.1.2, none⟩
      else
        eBind (decAnyV p.2) (fun q =>
          if q.2 = [] then .ok ⟨p.1.2, some q.1⟩ else .error .TrailingData)
    else .error .UnexpectedTag)

def decAlgorithmIdentifier : Bytes → Except Err (AlgorithmIdentifier × Bytes) :=
  decSeq decAlgorithmIdentifierFields

def decSubjectKeyIdentifier (b : Bytes) : Except Err (SubjectKeyIdentifier × Bytes) :=
  eBind (readTLV b) (fun p =>
    if p.1.1 = 4 then .ok (⟨p.1.2⟩, p.2) else .error .UnexpectedTag)

/-- Modelled from the spec (section 4.4 choice resolver): peek the leading
tag and dispatch: SEQUENCE `0x30` selects `IssuerAndSerialNumber`; context
tag `0xA0` selects the EXPLICIT-wrapped `SubjectKeyIdentifier`; any other
leading tag is rejected. -/
def decSignerIdentifier (b : Bytes) : Except Err (SignerIdentifier × Bytes) :=
  if b.head? = some 0x30 then
    eBind (decIssuerAndSerialNumber b) (fun p => .ok (.IssuerAndSerialNumber p.1, p.2))
  else if b.head? = some 0xA0 then
    eBind (readTLV b) (fun p =>
      eBind (decSubjectKeyIdentifier p.1.2) (fun q =>
        if q.2 = [] then .ok (.SubjectKeyIdentifier q.1, p.2) else .error .TrailingData))
  else .error .UnexpectedTag

def decAttributeFields (c : Bytes) : Except Err Attribute :=
  eBind (readTLV c) (fun p =>
    if p.1.1 = 6 then
      eBind (readTLV p.2) (fun q =>
        if q.1.1 = 0x31 then
          eBind (decSetContent decAnyV q.1.2) (fun vals =>
            if q.2 = [] then .ok ⟨p.1.2, vals⟩ else .error .TrailingData)
        else .error .UnexpectedTag)
    else .error .UnexpectedTag)

def decAttribute : Bytes → Except Err (Attribute × Bytes) := decSeq decAttributeFields

/-- Modelled from the spec (section 4.2): an OPTIONAL field with IMPLICIT
context tag `t` wrapping a SET-OF: the field is absent (zero bytes
consumed) when the input is exhausted or the next tag differs from `t`;
otherwise the implicitly tagged SET-OF content octets are decoded. -/
def decOptSet {E : Type} (t : Nat) (dec : Bytes → Except Err (E × Bytes)) (c : Bytes) :
    Except Err (Option (List E) × Bytes) :=
  if c.head? = some t then
    eBind (readTLV c) (fun p =>
      eBind (decSetContent dec p.1.2) (fun l => .ok (some l, p.2)))
  else .ok (none, c)

/-- Decode a `CmsVersion` field: a DER INTEGER with minimal content octets
whose value lies in {0..5} (closed-enum validity check, spec section 4.1:
any other integer fails with `InvalidVersion`). -/
def decCmsVersion (b : Bytes) : Except Err (CmsVersion × Bytes) :=
  eBind (readTLV b) (fun p =>
    if p.1.1 = 2 then
      if minimalIntContent p.1.2 then
        eBind (versionFromContent p.1.2) (fun v => .ok (v, p.2))
      else .error .NonCanonicalInteger
    else .error .UnexpectedTag)

def decSignerInfoFields (c : Bytes) : Except Err SignerInfo :=
  eBind (decCmsVersion c) (fun pv =>
    eBind (decSignerIdentifier pv.2) (fun ps =>
      eBind (decAlgorithmIdentifier ps.2) (fun pd =>
        eBind (decOptSet 0xA0 decAttribute pd.2) (fun pa =>
          eBind (decAlgorithmIdentifier pa.2) (fun pg =>
            eBind (readTLV pg.2) (fun pq =>
              if pq.1.1 = 4 then
                eBind (decOptSet 0xA1 decAttribute pq.2) (fun pu =>
                  if pu.2 = [] then
                    .ok ⟨pv.1, ps.1, pd.1, pa.1, pg.1, pq.1.2, pu.1⟩
                  else .error .TrailingData)
              else .error .UnexpectedTag))))))

def decSignerInfo : Bytes → Except Err (SignerInfo × Bytes) := decSeq decSignerInfoFields

def decEncapsulatedContentInfoFields (c : Bytes) : Except Err EncapsulatedContentInfo :=
  eBind (readTLV c) (fun p =>
    if p.1.1 = 6 then
      if p.2 = [] then .ok ⟨p.1.2, none⟩
      else
        if p.2.head? = some 0xA0 then
          eBind (readTLV p.2) (fun q =>
            eBind (decAnyV q.1.2) (fun a =>
              if a.2 = [] then
                if q.2 = [] then .ok ⟨p.1.2, some a.1⟩ else .error .TrailingData
              else .error .TrailingData))
        else .error .TrailingData
    else .error .UnexpectedTag)

def decEncapsulatedContentInfo : Bytes → Except Err (EncapsulatedContentInfo × Bytes) :=
  decSeq decEncapsulatedContentInfoFields

def decContentInfoFields (c : Bytes) : Except Err ContentInfo :=
  eBind (readTLV c) (fun p =>
    if p.1.1 = 6 then
      eBind (readTLV p.2) (fun q =>
        if q.1.1 = 0xA0 then
          eBind (decAnyV q.1.2) (fun a =>
            if a.2 = [] then
              if q.2 = [] then .ok ⟨p.1.2, a.1⟩ else .error .TrailingData
            else .error .TrailingData)
        else .error .UnexpectedTag)
    else .error .UnexpectedTag)

def decContentInfo : Bytes → Except Err (ContentInfo × Bytes) := decSeq decContentInfoFields

def decSignedDataFields (c : Bytes) : Except Err SignedData :=
  eBind (decCmsVersion c) (fun pv =>
    eBind (readTLV pv.2) (fun pd =>
      if pd.1.1 = 0x31 then
        eBind (decSetContent decAlgorithmIdentifier pd.1.2) (fun das =>
          eBind (decEncapsulatedContentInfo pd.2) (fun pe =>
            eBind (decOptSet 0xA0 decAnyV pe.2) (fun pc =>
              eBind (decOptSet 0xA1 decAnyV pc.2) (fun pr =>
                eBind (readTLV pr.2) (fun pq =>
                  if pq.1.1 = 0x31 then
                    eBind (decSetContent decSignerInfo pq.1.2) (fun sis =>
                      if pq.2 = [] then
                        .ok ⟨pv.1, das, pe.1, pc.1, pr.1, sis⟩
                      else .error .TrailingData)
                  else .error .UnexpectedTag)))))
      else .error .UnexpectedTag))

def decSignedData : Bytes → Except Err (SignedData × Bytes) := decSeq decSignedDataFields

/-! ## Model-level validity: the `SetOfVec` sortedness invariant

A Rust `SetOfVec` always holds its elements sorted by their canonical
encodings; the corresponding model-level lists carry that invariant as an
executable validity predicate. -/

def validAttribute (a : Attribute) : Bool := ordered (a.values.map encAnyV)

def validAttrList (l : List Attribute) : Bool :=
  l.all validAttribute && ordered (l.map encAttribute)

def validOptAttrs : Option (List Attribute) → Bool
  | none => true
  | some l => validAttrList l

def validSignerInfo (si : SignerInfo) : Bool :=
  validOptAttrs si.signed_attrs && validOptAttrs si.unsigned_attrs

def validOptAnyList : Option (List AnyV) → Bool
  | none => true
  | some l => ordered (l.map encAnyV)

def validSignedData (sd : SignedData) : Bool :=
  ordered (sd.digest_algorithms.map encAlgorithmIdentifier) &&
  validOptAnyList sd.certificates &&
  validOptAnyList sd.crls &&
  sd.signer_infos.all validSignerInfo &&
  ordered (sd.signer_infos.map encSignerInfo)

/-! ## Codec laws, leaves first

For each type `X` with encoder `encX` and stream decoder `decX` we prove
* round-trip: `decX (encX v ++ r) = .ok (v, r)` for valid `v`, and
* canonicity: `byteOk b → decX b = .ok (v, r) → b = encX v ++ r` (plus
  validity of `v`),
mirroring the codec-law pairs of verified serialization developments. -/

theorem readTLV_tlv_nil (t : Nat) (c : Bytes) : readTLV (tlv t c) = .ok ((t, c), []) := by
  have h := readTLV_tlv t c []
  rwa [List.append_nil] at h

theorem byteOk_split (a b : Bytes) (h : byteOk (a ++ b) = true) :
    byteOk a = true ∧ byteOk b = true := by
  rw [byteOk_append] at h
  exact Bool.and_eq_true_iff.mp h

theorem byteOk_tlv_content (t : Nat) (c : Bytes) (h : byteOk (tlv t c) = true) :
    byteOk c = true := by
  unfold tlv at h
  simp only [byteOk, List.all_cons, List.all_append, Bool.and_eq_true] at h
  simp only [byteOk]
  exact h.2.2

theorem decAnyV_rt (a : AnyV) (r : Bytes) : decAnyV (encAnyV a ++ r) = .ok (a, r) := by
  unfold decAnyV encAnyV
  rw [readTLV_tlv, eBind_ok]

theorem decAnyV_rt_nil (a : AnyV) : decAnyV (encAnyV a) = .ok (a, []) := by
  have h := decAnyV_rt a []
  rwa [List.append_nil] at h

theorem decAnyV_can (b : Bytes) (a : AnyV) (r : Bytes) (hb : byteOk b = true)
    (h : decAnyV b = .ok (a, r)) : b = encAnyV a ++ r := by
  unfold decAnyV eBind at h
  split at h
  · exact absurd h (by simp)
  · rename_i p heq
    simp only [Except.ok.injEq, Prod.mk.injEq] at h
    obtain ⟨h1, h2⟩ := h
    have hcan := readTLV_canonical b p.1.1 p.1.2 p.2 hb heq
    rw [← h1, ← h2]
    exact hcan

theorem decSeq_rt {X : Type} (fields : Bytes → Except Err X) (c : Bytes) (x : X) (r : Bytes)
    (hf : fields c = .ok x) : decSeq fields (tlv 0x30 c ++ r) = .ok (x, r) := by
  unfold decSeq
  rw [readTLV_tlv, eBind_ok]
  simp [hf, eBind_ok]

theorem decSeq_can {X : Type} (fields : Bytes → Except Err X) (b : Bytes) (x : X) (r : Bytes)
    (hb : byteOk b = true) (h : decSeq fields b = .ok (x, r)) :
    ∃ c, byteOk c = true ∧ fields c = .ok x ∧ b = tlv 0x30 c ++ r := by
  unfold decSeq eBind at h
  split at h
  · exact absurd h (by simp)
  · rename_i p heq
    try simp only [] at h
    split at h
    · rename_i ht
      split at h
      · exact absurd h (by simp)
      · rename_i x' hx
        simp only [Except.ok.injEq, Prod.mk.injEq] at h
        obtain ⟨h1, h2⟩ := h
        subst h1
        have hcan := readTLV_canonical b p.1.1 p.1.2 p.2 hb heq
        rw [ht] at hcan
        rw [← h2]
        refine ⟨p.1.2, ?_, hx, hcan⟩
        have hsplit := byteOk_split _ _ (by rw [← hcan]; exact hb)
        exact byteOk_tlv_content _ _ hsplit.1
    · exact absurd h (by simp)

theorem decSubjectKeyIdentifier_rt (v : SubjectKeyIdentifier) (r : Bytes) :
    decSubjectKeyIdentifier (encSubjectKeyIdentifier v ++ r) = .ok (v, r) := by
  unfold decSubjectKeyIdentifier encSubjectKeyIdentifier
  rw [readTLV_tlv, eBind_ok]
  simp

theorem decSubjectKeyIdentifier_rt_nil (v : SubjectKeyIdentifier) :
    decSubjectKeyIdentifier (encSubjectKeyIdentifier v) = .ok (v, []) := by
  have h := decSubjectKeyIdentifier_rt v []
  rwa [List.append_nil] at h

theorem decSubjectKeyIdentifier_can (b : Bytes) (v : SubjectKeyIdentifier) (r : Bytes)
    (hb : byteOk b = true) (h : decSubjectKeyIdentifier b = .ok (v, r)) :
    b = encSubjectKeyIdentifier v ++ r := by
  unfold decSubjectKeyIdentifier eBind at h
  split at h
  · exact absurd h (by simp)
  · rename_i p heq
    try simp only [] at h
    split at h
    · rename_i ht
      simp only [Except.ok.injEq, Prod.mk.injEq] at h
      obtain ⟨h1, h2⟩ := h
      have hcan := readTLV_canonical b p.1.1 p.1.2 p.2 hb heq
      rw [ht] at hcan
      rw [← h1, ← h2]
      exact hcan
    · exact absurd h (by simp)

theorem decIssuerAndSerialNumberFields_rt (i : IssuerAndSerialNumber) :
    decIssuerAndSerialNumberFields (encIssuerAndSerialNumberContent i) = .ok i := by
  unfold decIssuerAndSerialNumberFields encIssuerAndSerialNumberContent
  rw [decAnyV_rt, eBind_ok]
  simp only []
  rw [readTLV_tlv_nil, eBind_ok]
  simp

theorem decIssuerAndSerialNumber_rt (i : IssuerAndSerialNumber) (r : Bytes) :
    decIssuerAndSerialNumber (encIssuerAndSerialNumber i ++ r) = .ok (i, r) :=
  decSeq_rt _ _ _ r (decIssuerAndSerialNumberFields_rt i)

theorem decIssuerAndSerialNumberFields_can (c : Bytes) (i : IssuerAndSerialNumber)
    (hb : byteOk c = true) (h : decIssuerAndSerialNumberFields c = .ok i) :
    c = encIssuerAndSerialNumberContent i := by
  unfold decIssuerAndSerialNumberFields eBind at h
  split at h
  · exact absurd h (by simp)
  · rename_i p hp
    try simp only [] at h
    split at h
    · exact absurd h (by simp)
    · rename_i q hq
      try simp only [] at h
      split at h
      · rename_i ht
        split at h
        · rename_i hr2
          simp only [Except.ok.injEq] at h
          have hcp : c = encAnyV p.1 ++ p.2 := decAnyV_can c p.1 p.2 hb hp
          have hb2 : byteOk p.2 = true :=
            (byteOk_split _ _ (by rw [← hcp]; exact hb)).2
          have hcq : p.2 = tlv q.1.1 q.1.2 ++ q.2 :=
            readTLV_canonical p.2 q.1.1 q.1.2 q.2 hb2 hq
          rw [← h]
          unfold encIssuerAndSerialNumberContent
          simp only []
          rw [hcp, hcq, hr2, ht, List.append_nil]
        · exact absurd h (by simp)
      · exact absurd h (by simp)

theorem encAnyV_ne_nil (a : AnyV) : encAnyV a ≠ [] := by simp [encAnyV, tlv]

theorem decAlgorithmIdentifierFields_rt (a : AlgorithmIdentifier) :
    decAlgorithmIdentifierFields (encAlgorithmIdentifierContent a) = .ok a := by
  obtain ⟨oid, params⟩ := a
  cases params with
  | none =>
    unfold encAlgorithmIdentifierContent decAlgorithmIdentifierFields
    simp [encOptAnyV, readTLV_tlv_nil, eBind_ok]
  | some p =>
    unfold encAlgorithmIdentifierContent decAlgorithmIdentifierFields
    simp [encOptAnyV, readTLV_tlv, eBind_ok, decAnyV_rt_nil, encAnyV_ne_nil]

theorem decAlgorithmIdentifier_rt (a : AlgorithmIdentifier) (r : Bytes) :
    decAlgorithmIdentifier (encAlgorithmIdentifier a ++ r) = .ok (a, r) :=
  decSeq_rt _ _ _ r (decAlgorithmIdentifierFields_rt a)

theorem decAlgorithmIdentifier_rt_nil (a : AlgorithmIdentifier) :
    decAlgorithmIdentifier (encAlgorithmIdentifier a) = .ok (a, []) := by
  have h := decAlgorithmIdentifier_rt a []
  rwa [List.append_nil] at h

theorem decAlgorithmIdentifierFields_can (c : Bytes) (a : AlgorithmIdentifier)
    (hb : byteOk c = true) (h : decAlgorithmIdentifierFields c = .ok a) :
    c = encAlgorithmIdentifierContent a := by
  unfold decAlgorithmIdentifierFields eBind at h
  split at h
  · exact absurd h (by simp)
  · rename_i p hp
    try simp only [] at h
    split at h
    · rename_i ht
      have hcp := readTLV_canonical c p.1.1 p.1.2 p.2 hb hp
      split at h
      · rename_i hr1
        simp only [Except.ok.injEq] at h
        rw [← h]
        unfold encAlgorithmIdentifierContent
        simp only [encOptAnyV]
        rw [List.append_nil, hcp, ht, hr1, List.append_nil]
      · split at h
        · exact absurd h (by simp)
        · rename_i q hq
          try simp only [] at h
          split at h
          · rename_i hr2
            simp only [Except.ok.injEq] at h
            have hb2 : byteOk p.2 = true :=
              (byteOk_split _ _ (by rw [← hcp]; exact hb)).2
            have hcq := decAnyV_can p.2 q.1 q.2 hb2 hq
            rw [← h]
            unfold encAlgorithmIdentifierContent
            simp only [encOptAnyV]
            rw [hcp, hcq, hr2, ht, List.append_nil]
          · exact absurd h (by simp)
    · exact absurd h (by simp)

theorem decAlgorithmIdentifier_can (b : Bytes) (a : AlgorithmIdentifier) (r : Bytes)
    (hb : byteOk b = true) (h : decAlgorithmIdentifier b = .ok (a, r)) :
    b = encAlgorithmIdentifier a ++ r := by
  obtain ⟨c, hbc, hfc, hshape⟩ := decSeq_can _ b a r hb h
  rw [hshape, decAlgorithmIdentifierFields_can c a hbc hfc]
  rfl

theorem decIssuerAndSerialNumber_can (b : Bytes) (i : IssuerAndSerialNumber) (r : Bytes)
    (hb : byteOk b = true) (h : decIssuerAndSerialNumber b = .ok (i, r)) :
    b = encIssuerAndSerialNumber i ++ r := by
  obtain ⟨c, hbc, hfc, hshape⟩ := decSeq_can _ b i r hb h
  rw [hshape, decIssuerAndSerialNumberFields_can c i hbc hfc]
  rfl

theorem versionFromContent_disc (v : CmsVersion) : versionFromContent [v.disc] = .ok v := by
  cases v <;> rfl

theorem versionFromContent_ok_shape (c : Bytes) (v : CmsVersion)
    (h : versionFromContent c = .ok v) : c = [v.disc] := by
  unfold versionFromContent at h
  split at h <;>
    first
    | (simp only [Except.ok.injEq] at h; subst h; rfl)
    | exact absurd h (by simp)

theorem decCmsVersion_rt (v : CmsVersion) (r : Bytes) :
    decCmsVersion (encCmsVersion v ++ r) = .ok (v, r) := by
  unfold decCmsVersion encCmsVersion
  rw [readTLV_tlv, eBind_ok]
  simp [minimalIntContent, versionFromContent_disc, eBind_ok]

theorem decCmsVersion_can (b : Bytes) (v : CmsVersion) (r : Bytes)
    (hb : byteOk b = true) (h : decCmsVersion b = .ok (v, r)) :
    b = encCmsVersion v ++ r := by
  unfold decCmsVersion eBind at h
  split at h
  · exact absurd h (by simp)
  · rename_i p hp
    try simp only [] at h
    split at h
    · rename_i ht
      split at h
      · rename_i hmin
        split at h
        · exact absurd h (by simp)
        · rename_i v' hv
          simp only [Except.ok.injEq, Prod.mk.injEq] at h
          obtain ⟨h1, h2⟩ := h
          have hshape := versionFromContent_ok_shape p.1.2 v' hv
          have hcp := readTLV_canonical b p.1.1 p.1.2 p.2 hb hp
          rw [← h1, ← h2]
          unfold encCmsVersion
          rw [hcp, hshape, ht]
      · exact absurd h (by simp)
    · exact absurd h (by simp)

theorem decSignerIdentifier_rt (v : SignerIdentifier) (r : Bytes) :
    decSignerIdentifier (encSignerIdentifier v ++ r) = .ok (v, r) := by
  cases v with
  | IssuerAndSerialNumber i =>
    unfold decSignerIdentifier encSignerIdentifier
    rw [if_pos (by simp [encIssuerAndSerialNumber, tlv] :
      (encIssuerAndSerialNumber i ++ r).head? = some 0x30)]
    rw [decIssuerAndSerialNumber_rt, eBind_ok]
  | SubjectKeyIdentifier sk =>
    unfold decSignerIdentifier encSignerIdentifier
    rw [if_neg (by simp [tlv] :
      ¬ (tlv 0xA0 (encSubjectKeyIdentifier sk) ++ r).head? = some 0x30)]
    rw [if_pos (by simp [tlv] :
      (tlv 0xA0 (encSubjectKeyIdentifier sk) ++ r).head? = some 0xA0)]
    rw [readTLV_tlv, eBind_ok]
    simp [decSubjectKeyIdentifier_rt_nil, eBind_ok]

theorem decSignerIdentifier_can (b : Bytes) (v : SignerIdentifier) (r : Bytes)
    (hb : byteOk b = true) (h : decSignerIdentifier b = .ok (v, r)) :
    b = encSignerIdentifier v ++ r := by
  unfold decSignerIdentifier eBind at h
  split at h
  · split at h
    · exact absurd h (by simp)
    · rename_i p hp
      try simp only [] at h
      simp only [Except.ok.injEq, Prod.mk.injEq] at h
      obtain ⟨h1, h2⟩ := h
      have hcan := decIssuerAndSerialNumber_can b p.1 p.2 hb hp
      rw [← h1, ← h2]
      exact hcan
  · split at h
    · rename_i hh0 hhA
      split at h
      · exact absurd h (by simp)
      · rename_i p hp
        try simp only [] at h
        split at h
        · exact absurd h (by simp)
        · rename_i q hq
          try simp only [] at h
          split at h
          · rename_i hq2
            simp only [Except.ok.injEq, Prod.mk.injEq] at h
            obtain ⟨h1, h2⟩ := h
            have hcp := readTLV_canonical b p.1.1 p.1.2 p.2 hb hp
            have hbc : byteOk p.1.2 = true :=
              byteOk_tlv_content _ _ (byteOk_split _ _ (by rw [← hcp]; exact hb)).1
            have hcq := decSubjectKeyIdentifier_can p.1.2 q.1 q.2 hbc hq
            have htag : p.1.1 = 0xA0 := by
              rw [hcp] at hhA
              simp only [tlv, List.cons_append, List.head?_cons, Option.some.injEq] at hhA
              exact hhA
            rw [← h1, ← h2]
            unfold encSignerIdentifier
            rw [hcp, htag, hcq, hq2, List.append_nil]
          · exact absurd h (by simp)
    · exact absurd h (by simp)

theorem decAttributeFields_rt (a : Attribute) (hv : validAttribute a = true) :
    decAttributeFields (encAttributeContent a) = .ok a := by
  obtain ⟨oid, vals⟩ := a
  have hord : ordered (vals.map encAnyV) = true := hv
  have hset : decSetContent decAnyV (setValue (vals.map encAnyV)) = .ok vals :=
    decSetContent_rt decAnyV encAnyV vals (fun e _ => decAnyV_rt_nil e)
      (fun e _ => ⟨e.tag, e.content, rfl⟩) hord
  unfold decAttributeFields encAttributeContent
  rw [readTLV_tlv, eBind_ok]
  try simp only []
  repeat rw [if_pos trivial]
  rw [readTLV_tlv_nil, eBind_ok]
  try simp only []
  repeat rw [if_pos trivial]
  rw [hset, eBind_ok]
  try simp only []
  repeat rw [if_pos trivial]

theorem decAttribute_rt (a : Attribute) (r : Bytes) (hv : validAttribute a = true) :
    decAttribute (encAttribute a ++ r) = .ok (a, r) :=
  decSeq_rt _ _ _ r (decAttributeFields_rt a hv)

theorem decAttribute_rt_nil (a : Attribute) (hv : validAttribute a = true) :
    decAttribute (encAttribute a) = .ok (a, []) := by
  have h := decAttribute_rt a [] hv
  rwa [List.append_nil] at h

theorem decAttributeFields_can (c : Bytes) (a : Attribute)
    (hb : byteOk c = true) (h : decAttributeFields c = .ok a) :
    c = encAttributeContent a ∧ validAttribute a = true := by
  unfold decAttributeFields eBind at h
  split at h
  · exact absurd h (by simp)
  · rename_i p hp
    try simp only [] at h
    split at h
    · rename_i ht
      split at h
      · exact absurd h (by simp)
      · rename_i q hq
        try simp only [] at h
        split at h
        · rename_i ht2
          split at h
          · exact absurd h (by simp)
          · rename_i vals hvals
            try simp only [] at h
            split at h
            · rename_i hr2
              simp only [Except.ok.injEq] at h
              have hcp := readTLV_canonical c p.1.1 p.1.2 p.2 hb hp
              have hb2 : byteOk p.2 = true :=
                (byteOk_split _ _ (by rw [← hcp]; exact hb)).2
              have hcq := readTLV_canonical p.2 q.1.1 q.1.2 q.2 hb2 hq
              have hbv : byteOk q.1.2 = true :=
                byteOk_tlv_content _ _ (byteOk_split _ _ (by rw [← hcq]; exact hb2)).1
              obtain ⟨_, hord, hflat⟩ :=
                decSetContent_can decAnyV encAnyV (fun _ => true)
                  (fun b e r hb' h' => ⟨rfl, decAnyV_can b e r hb' h'⟩)
                  q.1.2 vals hbv hvals
              constructor
              · rw [← h]
                unfold encAttributeContent
                simp only []
                rw [hcp, hcq, hr2, ht, ht2, List.append_nil, hflat,
                  setValue_of_ordered _ hord]
              · rw [← h]
                exact hord
            · exact absurd h (by simp)
        · exact absurd h (by simp)
    · exact absurd h (by simp)

theorem decAttribute_can (b : Bytes) (a : Attribute) (r : Bytes)
    (hb : byteOk b = true) (h : decAttribute b = .ok (a, r)) :
    b = encAttribute a ++ r ∧ validAttribute a = true := by
  obtain ⟨c, hbc, hfc, hshape⟩ := decSeq_can _ b a r hb h
  obtain ⟨hc, hv⟩ := decAttributeFields_can c a hbc hfc
  constructor
  · rw [hshape, hc]
    rfl
  · exact hv

/-! ## OPTIONAL IMPLICIT-tagged SET-OF fields -/

theorem decOptSet_rt_none {E : Type} (t : Nat) (dec : Bytes → Except Err (E × Bytes))
    (c : Bytes) (hc : ¬ c.head? = some t) : decOptSet t dec c = .ok (none, c) := by
  unfold decOptSet
  rw [if_neg hc]

theorem decOptSet_rt_some {E : Type} (t : Nat) (dec : Bytes → Except Err (E × Bytes))
    (enc : E → Bytes) (l : List E) (r : Bytes)
    (hdec : ∀ e ∈ l, dec (enc e) = .ok (e, ([] : Bytes)))
    (hshape : ∀ e ∈ l, ∃ t' c', enc e = tlv t' c')
    (hord : ordered (l.map enc) = true) :
    decOptSet t dec (tlv t (setValue (l.map enc)) ++ r) = .ok (some l, r) := by
  unfold decOptSet
  rw [if_pos (by simp [tlv] : (tlv t (setValue (l.map enc)) ++ r).head? = some t)]
  rw [readTLV_tlv, eBind_ok]
  try simp only []
  rw [decSetContent_rt dec enc l hdec hshape hord, eBind_ok]

theorem decOptSet_can {E : Type} (t : Nat) (dec : Bytes → Except Err (E × Bytes))
    (enc : E → Bytes) (P : E → Bool)
    (hcan : ∀ b e r, byteOk b = true → dec b = .ok (e, r) → P e = true ∧ b = enc e ++ r)
    (c : Bytes) (o : Option (List E)) (r : Bytes)
    (hb : byteOk c = true) (h : decOptSet t dec c = .ok (o, r)) :
    c = encOptSet t enc o ++ r ∧
      (∀ l, o = some l → (∀ e ∈ l, P e = true) ∧ ordered (l.map enc) = true) := by
  unfold decOptSet eBind at h
  split at h
  · rename_i hhead
    split at h
    · exact absurd h (by simp)
    · rename_i p hp
      try simp only [] at h
      split at h
      · exact absurd h (by simp)
      · rename_i l hl
        try simp only [] at h
        simp only [Except.ok.injEq, Prod.mk.injEq] at h
        obtain ⟨h1, h2⟩ := h
        subst h1
        subst h2
        have hcp := readTLV_canonical c p.1.1 p.1.2 p.2 hb hp
        have htag : p.1.1 = t := by
          rw [hcp] at hhead
          simp only [tlv, List.cons_append, List.head?_cons, Option.some.injEq] at hhead
          exact hhead
        have hbin : byteOk p.1.2 = true :=
          byteOk_tlv_content _ _ (byteOk_split _ _ (by rw [← hcp]; exact hb)).1
        obtain ⟨hPs, hord, hflat⟩ := decSetContent_can dec enc P hcan p.1.2 l hbin hl
        constructor
        · simp only [encOptSet]
          rw [hcp, htag, hflat, setValue_of_ordered _ hord]
        · intro l' hl'
          simp only [Option.some.injEq] at hl'
          subst hl'
          exact ⟨hPs, hord⟩
  · simp only [Except.ok.injEq, Prod.mk.injEq] at h
    obtain ⟨h1, h2⟩ := h
    subst h1
    subst h2
    exact ⟨by simp [encOptSet], by intro l hl; exact absurd hl (by simp)⟩

theorem validOptAttrs_of_can (o : Option (List Attribute))
    (hv : ∀ l, o = some l →
      (∀ e ∈ l, validAttribute e = true) ∧ ordered (l.map encAttribute) = true) :
    validOptAttrs o = true := by
  cases o with
  | none => rfl
  | some l =>
    obtain ⟨h1, h2⟩ := hv l rfl
    simp only [validOptAttrs, validAttrList, Bool.and_eq_true, List.all_eq_true]
    exact ⟨fun e he => h1 e he, h2⟩

/-- Round-trip of an OPTIONAL IMPLICIT-tagged attribute-set field, given
that the bytes that follow cannot begin with the field's context tag. -/
theorem decOptAttrs_rt (t : Nat) (o : Option (List Attribute)) (tl : Bytes)
    (hvo : validOptAttrs o = true) (hne : ¬ tl.head? = some t) :
    decOptSet t decAttribute (encOptSet t encAttribute o ++ tl) = .ok (o, tl) := by
  cases o with
  | none =>
    simp only [encOptSet, List.nil_append]
    exact decOptSet_rt_none t decAttribute tl hne
  | some l =>
    have hl := hvo
    simp only [validOptAttrs, validAttrList, Bool.and_eq_true, List.all_eq_true] at hl
    exact decOptSet_rt_some t decAttribute encAttribute l tl
      (fun e he => decAttribute_rt_nil e (hl.1 e he))
      (fun e _ => ⟨0x30, encAttributeContent e, rfl⟩) hl.2

theorem decOptAttrs_rt_nil (t : Nat) (o : Option (List Attribute))
    (hvo : validOptAttrs o = true) :
    decOptSet t decAttribute (encOptSet t encAttribute o) = .ok (o, []) := by
  have h := decOptAttrs_rt t o [] hvo (by simp)
  rwa [List.append_nil] at h

theorem decSignerInfoFields_rt (si : SignerInfo) (hv : validSignerInfo si = true) :
    decSignerInfoFields (encSignerInfoContent si) = .ok si := by
  obtain ⟨v, sid, da, sa, siga, sig, ua⟩ := si
  have hv' : validOptAttrs sa = true ∧ validOptAttrs ua = true := by
    simpa [validSignerInfo, Bool.and_eq_true] using hv
  unfold decSignerInfoFields encSignerInfoContent
  simp only [List.append_assoc]
  rw [decCmsVersion_rt, eBind_ok]
  try simp only []
  rw [decSignerIdentifier_rt, eBind_ok]
  try simp only []
  rw [decAlgorithmIdentifier_rt, eBind_ok]
  try simp only []
  rw [decOptAttrs_rt 0xA0 sa _ hv'.1 (by simp [encAlgorithmIdentifier, tlv]), eBind_ok]
  try simp only []
  rw [decAlgorithmIdentifier_rt, eBind_ok]
  try simp only []
  rw [readTLV_tlv, eBind_ok]
  try simp only []
  repeat rw [if_pos trivial]
  rw [decOptAttrs_rt_nil 0xA1 ua hv'.2, eBind_ok]
  try simp only []
  repeat rw [if_pos trivial]

theorem decSignerInfo_rt (si : SignerInfo) (r : Bytes) (hv : validSignerInfo si = true) :
    decSignerInfo (encSignerInfo si ++ r) = .ok (si, r) :=
  decSeq_rt _ _ _ r (decSignerInfoFields_rt si hv)

theorem decSignerInfo_rt_nil (si : SignerInfo) (hv : validSignerInfo si = true) :
    decSignerInfo (encSignerInfo si) = .ok (si, []) := by
  have h := decSignerInfo_rt si [] hv
  rwa [List.append_nil] at h

theorem decSignerInfoFields_can (c : Bytes) (si : SignerInfo)
    (hb : byteOk c = true) (h : decSignerInfoFields c = .ok si) :
    c = encSignerInfoContent si ∧ validSignerInfo si = true := by
  unfold decSignerInfoFields eBind at h
  split at h
  · exact absurd h (by simp)
  · rename_i pv hpv
    try simp only [] at h
    split at h
    · exact absurd h (by simp)
    · rename_i ps hps
      try simp only [] at h
      split at h
      · exact absurd h (by simp)
      · rename_i pd hpd
        try simp only [] at h
        split at h
        · exact absurd h (by simp)
        · rename_i pa hpa
          try simp only [] at h
          split at h
          · exact absurd h (by simp)
          · rename_i pg hpg
            try simp only [] at h
            split at h
            · exact absurd h (by simp)
            · rename_i pq hpq
              try simp only [] at h
              split at h
              · rename_i ht4
                split at h
                · exact absurd h (by simp)
                · rename_i pu hpu
                  try simp only [] at h
                  split at h
                  · rename_i hr7
                    simp only [Except.ok.injEq] at h
                    have hc1 := decCmsVersion_can c pv.1 pv.2 hb hpv
                    have hb1 : byteOk pv.2 = true :=
                      (byteOk_split _ _ (by rw [← hc1]; exact hb)).2
                    have hc2 := decSignerIdentifier_can pv.2 ps.1 ps.2 hb1 hps
                    have hb2 : byteOk ps.2 = true :=
                      (byteOk_split _ _ (by rw [← hc2]; exact hb1)).2
                    have hc3 := decAlgorithmIdentifier_can ps.2 pd.1 pd.2 hb2 hpd
                    have hb3 : byteOk pd.2 = true :=
                      (byteOk_split _ _ (by rw [← hc3]; exact hb2)).2
                    obtain ⟨hc4, hv4⟩ := decOptSet_can 0xA0 decAttribute encAttribute
                      validAttribute (fun b e r hb' h' => (decAttribute_can b e r hb' h').symm)
                      pd.2 pa.1 pa.2 hb3 hpa
                    have hb4 : byteOk pa.2 = true :=
                      (byteOk_split _ _ (by rw [← hc4]; exact hb3)).2
                    have hc5 := decAlgorithmIdentifier_can pa.2 pg.1 pg.2 hb4 hpg
                    have hb5 : byteOk pg.2 = true :=
                      (byteOk_split _ _ (by rw [← hc5]; exact hb4)).2
                    have hc6 := readTLV_canonical pg.2 pq.1.1 pq.1.2 pq.2 hb5 hpq
                    have hb6 : byteOk pq.2 = true :=
                      (byteOk_split _ _ (by rw [← hc6]; exact hb5)).2
                    obtain ⟨hc7, hv7⟩ := decOptSet_can 0xA1 decAttribute encAttribute
                      validAttribute (fun b e r hb' h' => (decAttribute_can b e r hb' h').symm)
                      pq.2 pu.1 pu.2 hb6 hpu
                    constructor
                    · rw [← h]
                      unfold encSignerInfoContent
                      simp only []
                      rw [hc1, hc2, hc3, hc4, hc5, hc6, hc7, hr7, List.append_nil, ht4]
                      simp [List.append_assoc]
                    · rw [← h]
                      unfold validSignerInfo
                      simp only [Bool.and_eq_true]
                      exact ⟨validOptAttrs_of_can pa.1 hv4, validOptAttrs_of_can pu.1 hv7⟩
                  · exact absurd h (by simp)
              · exact absurd h (by simp)

theorem decSignerInfo_can (b : Bytes) (si : SignerInfo) (r : Bytes)
    (hb : byteOk b = true) (h : decSignerInfo b = .ok (si, r)) :
    b = encSignerInfo si ++ r ∧ validSignerInfo si = true := by
  obtain ⟨c, hbc, hfc, hshape⟩ := decSeq_can _ b si r hb h
  obtain ⟨hc, hv⟩ := decSignerInfoFields_can c si hbc hfc
  constructor
  · rw [hshape, hc]
    rfl
  · exact hv

theorem decEncapsulatedContentInfoFields_rt (e : EncapsulatedContentInfo) :
    decEncapsulatedContentInfoFields (encEncapsulatedContentInfoContent e) = .ok e := by
  obtain ⟨ect, eco⟩ := e
  cases eco with
  | none =>
    unfold encEncapsulatedContentInfoContent decEncapsulatedContentInfoFields
    simp only [encOptEContent, List.append_nil]
    rw [readTLV_tlv_nil, eBind_ok]
    try simp only []
    repeat rw [if_pos trivial]
  | some a =>
    unfold encEncapsulatedContentInfoContent decEncapsulatedContentInfoFields
    simp only [encOptEContent]
    rw [readTLV_tlv, eBind_ok]
    try simp only []
    repeat rw [if_pos trivial]
    rw [if_neg (by simp [tlv] : ¬ tlv 0xA0 (encAnyV a) = [])]
    rw [if_pos (by simp [tlv] : (tlv 0xA0 (encAnyV a)).head? = some 0xA0)]
    rw [readTLV_tlv_nil, eBind_ok]
    try simp only []
    rw [decAnyV_rt_nil, eBind_ok]
    try simp only []
    repeat rw [if_pos trivial]

theorem decEncapsulatedContentInfo_rt (e : EncapsulatedContentInfo) (r : Bytes) :
    decEncapsulatedContentInfo (encEncapsulatedContentInfo e ++ r) = .ok (e, r) :=
  decSeq_rt _ _ _ r (decEncapsulatedContentInfoFields_rt e)

theorem decEncapsulatedContentInfoFields_can (c : Bytes) (e : EncapsulatedContentInfo)
    (hb : byteOk c = true) (h : decEncapsulatedContentInfoFields c = .ok e) :
    c = encEncapsulatedContentInfoContent e := by
  unfold decEncapsulatedContentInfoFields eBind at h
  split at h
  · exact absurd h (by simp)
  · rename_i p hp
    try simp only [] at h
    split at h
    · rename_i ht
      have hcp := readTLV_canonical c p.1.1 p.1.2 p.2 hb hp
      split at h
      · rename_i hr1
        simp only [Except.ok.injEq] at h
        rw [← h]
        unfold encEncapsulatedContentInfoContent
        simp only [encOptEContent]
        rw [List.append_nil, hcp, ht, hr1, List.append_nil]
      · split at h
        · rename_i hhead
          split at h
          · exact absurd h (by simp)
          · rename_i q hq
            try simp only [] at h
            split at h
            · exact absurd h (by simp)
            · rename_i a2 ha2
              try simp only [] at h
              split at h
              · rename_i hi2
                split at h
                · rename_i hr2
                  simp only [Except.ok.injEq] at h
                  have hb2 : byteOk p.2 = true :=
                    (byteOk_split _ _ (by rw [← hcp]; exact hb)).2
                  have hcq := readTLV_canonical p.2 q.1.1 q.1.2 q.2 hb2 hq
                  have hbin : byteOk q.1.2 = true :=
                    byteOk_tlv_content _ _
                      (byteOk_split _ _ (by rw [← hcq]; exact hb2)).1
                  have hca := decAnyV_can q.1.2 a2.1 a2.2 hbin ha2
                  have htag : q.1.1 = 0xA0 := by
                    rw [hcq] at hhead
                    simp only [tlv, List.cons_append, List.head?_cons,
                      Option.some.injEq] at hhead
                    exact hhead
                  rw [← h]
                  unfold encEncapsulatedContentInfoContent
                  simp only [encOptEContent]
                  rw [hcp, hcq, hca, hi2, hr2, ht, htag, List.append_nil,
                    List.append_nil]
                · exact absurd h (by simp)
              · exact absurd h (by simp)
        · exact absurd h (by simp)
    · exact absurd h (by simp)

theorem decEncapsulatedContentInfo_can (b : Bytes) (e : EncapsulatedContentInfo) (r : Bytes)
    (hb : byteOk b = true) (h : decEncapsulatedContentInfo b = .ok (e, r)) :
    b = encEncapsulatedContentInfo e ++ r := by
  obtain ⟨c, hbc, hfc, hshape⟩ := decSeq_can _ b e r hb h
  rw [hshape, decEncapsulatedContentInfoFields_can c e hbc hfc]
  rfl

theorem decContentInfoFields_rt (ci : ContentInfo) :
    decContentInfoFields (encContentInfoContent ci) = .ok ci := by
  obtain ⟨ct, a⟩ := ci
  unfold encContentInfoContent decContentInfoFields
  rw [readTLV_tlv, eBind_ok]
  try simp only []
  repeat rw [if_pos trivial]
  rw [readTLV_tlv_nil, eBind_ok]
  try simp only []
  repeat rw [if_pos trivial]
  rw [decAnyV_rt_nil, eBind_ok]
  try simp only []
  repeat rw [if_pos trivial]

theorem decContentInfo_rt (ci : ContentInfo) (r : Bytes) :
    decContentInfo (encContentInfo ci ++ r) = .ok (ci, r) :=
  decSeq_rt _ _ _ r (decContentInfoFields_rt ci)

theorem decContentInfoFields_can (c : Bytes) (ci : ContentInfo)
    (hb : byteOk c = true) (h : decContentInfoFields c = .ok ci) :
    c = encContentInfoContent ci := by
  unfold decContentInfoFields eBind at h
  split at h
  · exact absurd h (by simp)
  · rename_i p hp
    try simp only [] at h
    split at h
    · rename_i ht
      split at h
      · exact absurd h (by simp)
      · rename_i q hq
        try simp only [] at h
        split at h
        · rename_i ht2
          split at h
          · exact absurd h (by simp)
          · rename_i a2 ha2
            try simp only [] at h
            split at h
            · rename_i hi2
              split at h
              · rename_i hr2
                simp only [Except.ok.injEq] at h
                have hcp := readTLV_canonical c p.1.1 p.1.2 p.2 hb hp
                have hb2 : byteOk p.2 = true :=
                  (byteOk_split _ _ (by rw [← hcp]; exact hb)).2
                have hcq := readTLV_canonical p.2 q.1.1 q.1.2 q.2 hb2 hq
                have hbin : byteOk q.1.2 = true :=
                  byteOk_tlv_content _ _
                    (byteOk_split _ _ (by rw [← hcq]; exact hb2)).1
                have hca := decAnyV_can q.1.2 a2.1 a2.2 hbin ha2
                rw [← h]
                unfold encContentInfoContent
                simp only []
                rw [hcp, hcq, hca, hi2, hr2, ht, ht2, List.append_nil,
                  List.append_nil]
              · exact absurd h (by simp)
            · exact absurd h (by simp)
        · exact absurd h (by simp)
    · exact absurd h (by simp)

theorem decContentInfo_can (b : Bytes) (ci : ContentInfo) (r : Bytes)
    (hb : byteOk b = true) (h : decContentInfo b = .ok (ci, r)) :
    b = encContentInfo ci ++ r := by
  obtain ⟨c, hbc, hfc, hshape⟩ := decSeq_can _ b ci r hb h
  rw [hshape, decContentInfoFields_can c ci hbc hfc]
  rfl

/-- Round-trip of an OPTIONAL IMPLICIT-tagged SET-OF opaque TLVs
(`certificates` / `crls`), given that the bytes that follow cannot begin
with the field's context tag. -/
theorem decOptAnys_rt (t : Nat) (o : Option (List AnyV)) (tl : Bytes)
    (hvo : validOptAnyList o = true) (hne : ¬ tl.head? = some t) :
    decOptSet t decAnyV (encOptSet t encAnyV o ++ tl) = .ok (o, tl) := by
  cases o with
  | none =>
    simp only [encOptSet, List.nil_append]
    exact decOptSet_rt_none t decAnyV tl hne
  | some l =>
    simp only [validOptAnyList] at hvo
    exact decOptSet_rt_some t decAnyV encAnyV l tl
      (fun e _ => decAnyV_rt_nil e) (fun e _ => ⟨e.tag, e.content, rfl⟩) hvo

theorem validOptAnyList_of_can (o : Option (List AnyV))
    (hv : ∀ l, o = some l →
      (∀ e ∈ l, (fun _ => true) e = true) ∧ ordered (l.map encAnyV) = true) :
    validOptAnyList o = true := by
  cases o with
  | none => rfl
  | some l =>
    simp only [validOptAnyList]
    exact (hv l rfl).2

theorem decSignedDataFields_rt (sd : SignedData) (hv : validSignedData sd = true) :
    decSignedDataFields (encSignedDataContent sd) = .ok sd := by
  obtain ⟨v, das, ec, certs, crls, sis⟩ := sd
  have hv' := hv
  simp only [validSignedData, Bool.and_eq_true, List.all_eq_true] at hv'
  obtain ⟨⟨⟨⟨hdas, hcerts⟩, hcrls⟩, hsis1⟩, hsis2⟩ := hv'
  have hdset : decSetContent decAlgorithmIdentifier
      (setValue (das.map encAlgorithmIdentifier)) = .ok das :=
    decSetContent_rt _ _ das (fun e _ => decAlgorithmIdentifier_rt_nil e)
      (fun e _ => ⟨0x30, encAlgorithmIdentifierContent e, rfl⟩) hdas
  have hsset : decSetContent decSignerInfo (setValue (sis.map encSignerInfo)) = .ok sis :=
    decSetContent_rt _ _ sis (fun e he => decSignerInfo_rt_nil e (hsis1 e he))
      (fun e _ => ⟨0x30, encSignerInfoContent e, rfl⟩) hsis2
  unfold decSignedDataFields encSignedDataContent
  simp only [List.append_assoc]
  rw [decCmsVersion_rt, eBind_ok]
  try simp only []
  rw [readTLV_tlv, eBind_ok]
  try simp only []
  repeat rw [if_pos trivial]
  rw [hdset, eBind_ok]
  try simp only []
  rw [decEncapsulatedContentInfo_rt, eBind_ok]
  try simp only []
  rw [decOptAnys_rt 0xA0 certs _ hcerts
    (by cases crls <;> simp [encOptSet, tlv]), eBind_ok]
  try simp only []
  rw [decOptAnys_rt 0xA1 crls _ hcrls (by simp [tlv]), eBind_ok]
  try simp only []
  rw [readTLV_tlv_nil, eBind_ok]
  try simp only []
  repeat rw [if_pos trivial]
  rw [hsset, eBind_ok]
  try simp only []
  repeat rw [if_pos trivial]

theorem decSignedData_rt (sd : SignedData) (r : Bytes) (hv : validSignedData sd = true) :
    decSignedData (encSignedData sd ++ r) = .ok (sd, r) :=
  decSeq_rt _ _ _ r (decSignedDataFields_rt sd hv)

theorem decSignedDataFields_can (c : Bytes) (sd : SignedData)
    (hb : byteOk c = true) (h : decSignedDataFields c = .ok sd) :
    c = encSignedDataContent sd ∧ validSignedData sd = true := by
  unfold decSignedDataFields eBind at h
  split at h
  · exact absurd h (by simp)
  · rename_i pv hpv
    try simp only [] at h
    split at h
    · exact absurd h (by simp)
    · rename_i pd hpd
      try simp only [] at h
      split at h
      · rename_i ht31
        split at h
        · exact absurd h (by simp)
        · rename_i das hdas
          try simp only [] at h
          split at h
          · exact absurd h (by simp)
          · rename_i pe hpe
            try simp only [] at h
            split at h
            · exact absurd h (by simp)
            · rename_i pc hpc
              try simp only [] at h
              split at h
              · exact absurd h (by simp)
              · rename_i pr hpr
                try simp only [] at h
                split at h
                · exact absurd h (by simp)
                · rename_i pq hpq
                  try simp only [] at h
                  split at h
                  · rename_i ht31b
                    split at h
                    · exact absurd h (by simp)
                    · rename_i sis hsis
                      try simp only [] at h
                      split at h
                      · rename_i hr6
                        simp only [Except.ok.injEq] at h
                        have hc1 := decCmsVersion_can c pv.1 pv.2 hb hpv
                        have hb1 : byteOk pv.2 = true :=
                          (byteOk_split _ _ (by rw [← hc1]; exact hb)).2
                        have hc2 := readTLV_canonical pv.2 pd.1.1 pd.1.2 pd.2 hb1 hpd
                        have hb2 : byteOk pd.2 = true :=
                          (byteOk_split _ _ (by rw [← hc2]; exact hb1)).2
                        have hbd : byteOk pd.1.2 = true :=
                          byteOk_tlv_content _ _
                            (byteOk_split _ _ (by rw [← hc2]; exact hb1)).1
                        obtain ⟨_, hordd, hflatd⟩ :=
                          decSetContent_can decAlgorithmIdentifier
                            encAlgorithmIdentifier (fun _ => true)
                            (fun b e r hb' h' =>
                              ⟨rfl, decAlgorithmIdentifier_can b e r hb' h'⟩)
                            pd.1.2 das hbd hdas
                        have hc3 := decEncapsulatedContentInfo_can pd.2 pe.1 pe.2 hb2 hpe
                        have hb3 : byteOk pe.2 = true :=
                          (byteOk_split _ _ (by rw [← hc3]; exact hb2)).2
                        obtain ⟨hc4, hv4⟩ := decOptSet_can 0xA0 decAnyV encAnyV
                          (fun _ => true)
                          (fun b e r hb' h' => ⟨rfl, decAnyV_can b e r hb' h'⟩)
                          pe.2 pc.1 pc.2 hb3 hpc
                        have hb4 : byteOk pc.2 = true :=
                          (byteOk_split _ _ (by rw [← hc4]; exact hb3)).2
                        obtain ⟨hc5, hv5⟩ := decOptSet_can 0xA1 decAnyV encAnyV
                          (fun _ => true)
                          (fun b e r hb' h' => ⟨rfl, decAnyV_can b e r hb' h'⟩)
                          pc.2 pr.1 pr.2 hb4 hpr
                        have hb5 : byteOk pr.2 = true :=
                          (byteOk_split _ _ (by rw [← hc5]; exact hb4)).2
                        have hc6 := readTLV_canonical pr.2 pq.1.1 pq.1.2 pq.2 hb5 hpq
                        have hbs : byteOk pq.1.2 = true :=
                          byteOk_tlv_content _ _
                            (byteOk_split _ _ (by rw [← hc6]; exact hb5)).1
                        obtain ⟨hsisP, hords, hflats⟩ :=
                          decSetContent_can decSignerInfo encSignerInfo validSignerInfo
                            (fun b e r hb' h' => (decSignerInfo_can b e r hb' h').symm)
                            pq.1.2 sis hbs hsis
                        constructor
                        · rw [← h]
                          unfold encSignedDataContent
                          simp only []
                          rw [hc1, hc2, hc3, hc4, hc5, hc6, hr6, List.append_nil,
                            ht31, ht31b, hflatd, hflats,
                            setValue_of_ordered _ hordd, setValue_of_ordered _ hords]
                          simp [List.append_assoc]
                        · rw [← h]
                          unfold validSignedData
                          simp only [Bool.and_eq_true, List.all_eq_true]
                          refine ⟨⟨⟨⟨hordd, validOptAnyList_of_can pc.1 hv4⟩,
                            validOptAnyList_of_can pr.1 hv5⟩,
                            fun e he => hsisP e he⟩, hords⟩
                      · exact absurd h (by simp)
                  · exact absurd h (by simp)
      · exact absurd h (by simp)

theorem decSignedData_can (b : Bytes) (sd : SignedData) (r : Bytes)
    (hb : byteOk b = true) (h : decSignedData b = .ok (sd, r)) :
    b = encSignedData sd ++ r ∧ validSignedData sd = true := by
  obtain ⟨c, hbc, hfc, hshape⟩ := decSeq_can _ b sd r hb h
  obtain ⟨hc, hv⟩ := decSignedDataFields_can c sd hbc hfc
  constructor
  · rw [hshape, hc]
    rfl
  · exact hv

/-! ## Support for the claims -/

theorem decFull_of_ok {E : Type} (dec : Bytes → Except Err (E × Bytes)) (b : Bytes) (e : E)
    (h : dec b = .ok (e, ([] : Bytes))) : decFull dec b = .ok e := by
  unfold decFull
  rw [h]
  rfl

/-- `r` is exactly one complete TLV. -/
def isFullTLV (r : Bytes) : Bool :=
  match readTLV r with
  | .ok (_, rest) => rest.isEmpty
  | .error _ => false

theorem isFullTLV_ok (r : Bytes) (h : isFullTLV r = true) :
    ∃ p, readTLV r = .ok (p, []) := by
  unfold isFullTLV at h
  split at h
  · rename_i p rest heq
    rw [List.isEmpty_iff] at h
    subst h
    exact ⟨p, heq⟩
  · exact absurd h (by simp)

/-- Re-splitting a concatenation of complete TLVs recovers exactly those
TLVs. -/
theorem splitTLVs_flatten_full (l : List Bytes) (hb : byteOk l.flatten = true)
    (hfull : ∀ r ∈ l, isFullTLV r = true) :
    ∃ ps, splitTLVs l.flatten = .ok ps ∧ ps.map rawTLV = l := by
  induction l with
  | nil => exact ⟨[], rfl, rfl⟩
  | cons r tl ih =>
    rw [List.flatten_cons] at hb
    have hbr := byteOk_split _ _ hb
    obtain ⟨p, hr⟩ := isFullTLV_ok r (hfull r (List.mem_cons_self r tl))
    have hcanr : r = tlv p.1 p.2 := by
      have h := readTLV_canonical r p.1 p.2 [] hbr.1 hr
      simpa using h
    obtain ⟨ps', hs, hm⟩ := ih hbr.2 (fun x hx => hfull x (List.mem_cons_of_mem _ hx))
    refine ⟨p :: ps', ?_, ?_⟩
    · rw [List.flatten_cons, hcanr, splitTLVs_tlv, hs]
    · simp only [List.map_cons, rawTLV, hm, ← hcanr]

/-- A successful SET-OF decode implies the element TLV sequence was in
canonical order. -/
theorem decSetContent_ok_ordered {E : Type} (dec : Bytes → Except Err (E × Bytes))
    (c : Bytes) (l : List E) (ps : List (Nat × Bytes))
    (h : decSetContent dec c = .ok l) (hs : splitTLVs c = .ok ps) :
    ordered (ps.map rawTLV) = true := by
  unfold decSetContent at h
  split at h
  · exact absurd h (by simp)
  · rename_i ps' hs'
    rw [hs] at hs'
    simp only [Except.ok.injEq] at hs'
    subst hs'
    split at h
    · rename_i hord
      exact hord
    · exact absurd h (by simp)

/-- The single minimal INTEGER content octet of a small non-negative value. -/
theorem intContentVal_single (d : Nat) (hd : d < 128) : intContentVal [d] = (d : Int) := by
  simp only [intContentVal, if_pos hd]
  simp [foldVal]

theorem foldVal_cons_zero (xs : List Nat) : foldVal (0 :: xs) = foldVal xs := by
  simp [foldVal]

/-- Minimal two's-complement INTEGER content octets denoting a value in
{0..5} are a single octet equal to that value. -/
theorem minimal_val_small (c : Bytes) (hmin : minimalIntContent c = true)
    (hb : byteOk c = true) (h0 : 0 ≤ intContentVal c) (h5 : intContentVal c ≤ 5) :
    ∃ d, d < 128 ∧ c = [d] ∧ intContentVal c = (d : Int) := by
  match c with
  | [] => exact absurd hmin (by simp [minimalIntContent])
  | [d] =>
    have hd256 : d < 256 := by
      have := (List.all_eq_true.mp hb) d (List.mem_cons_self d [])
      simpa using this
    by_cases hd : d < 128
    · exact ⟨d, hd, rfl, intContentVal_single d hd⟩
    · exfalso
      have hv : intContentVal [d] = (foldVal [d] : Int) - (256 : Int) ^ (1 : Nat) := by
        simp only [intContentVal, if_neg hd]
        rfl
      have hfv : foldVal [d] = d := by simp [foldVal]
      rw [hv, hfv] at h0
      have : (d : Int) < 256 := by exact_mod_cast hd256
      simp only [pow_one] at h0
      omega
  | b0 :: b1 :: tl =>
    exfalso
    have hball : ∀ x ∈ b0 :: b1 :: tl, x < 256 := by
      intro x hx
      have := (List.all_eq_true.mp hb) x hx
      simpa using this
    simp only [minimalIntContent, Bool.and_eq_true, Bool.not_eq_true', Bool.and_eq_false_iff,
      beq_eq_false_iff_ne, ne_eq, decide_eq_false_iff_not, not_lt, not_le] at hmin
    by_cases hb0 : b0 < 128
    · have hval : intContentVal (b0 :: b1 :: tl) = (foldVal (b0 :: b1 :: tl) : Int) := by
        simp only [intContentVal, if_pos hb0]
      rw [hval] at h5
      by_cases hz : b0 = 0
      · subst hz
        have hb1 : 128 ≤ b1 := by
          rcases hmin.1 with h | h
          · exact absurd rfl h
          · exact h
        have hlb : b1 * 256 ^ tl.length ≤ foldVal (b1 :: tl) := foldVal_lb b1 tl
        have h256 : (1 : Nat) ≤ 256 ^ tl.length := Nat.one_le_pow _ _ (by decide)
        have : 128 ≤ foldVal (0 :: b1 :: tl) := by
          rw [foldVal_cons_zero]
          calc 128 ≤ b1 * 1 := by omega
          _ ≤ b1 * 256 ^ tl.length := Nat.mul_le_mul_left _ h256
          _ ≤ foldVal (b1 :: tl) := hlb
        have : (128 : Int) ≤ (foldVal (0 :: b1 :: tl) : Int) := by exact_mod_cast this
        omega
      · have hb0p : 1 ≤ b0 := Nat.pos_of_ne_zero hz
        have hlb : b0 * 256 ^ (b1 :: tl).length ≤ foldVal (b0 :: b1 :: tl) :=
          foldVal_lb b0 (b1 :: tl)
        have h256 : (256 : Nat) ≤ 256 ^ (b1 :: tl).length := by
          calc (256 : Nat) = 256 ^ (1 : Nat) := by norm_num
          _ ≤ 256 ^ (b1 :: tl).length :=
            Nat.pow_le_pow_right (by decide) (by simp)
        have : 256 ≤ foldVal (b0 :: b1 :: tl) := by
          calc (256 : Nat) ≤ b0 * 256 ^ (b1 :: tl).length := by
                have := Nat.mul_le_mul hb0p h256
                simpa using this
          _ ≤ foldVal (b0 :: b1 :: tl) := hlb
        have : (256 : Int) ≤ (foldVal (b0 :: b1 :: tl) : Int) := by exact_mod_cast this
        omega
    · have hval : intContentVal (b0 :: b1 :: tl) =
          (foldVal (b0 :: b1 :: tl) : Int) - (256 : Int) ^ (b0 :: b1 :: tl).length := by
        simp only [intContentVal, if_neg hb0]
      have hub : foldVal (b0 :: b1 :: tl) < 256 ^ (b0 :: b1 :: tl).length :=
        foldVal_ub _ hball
      have hubz : (foldVal (b0 :: b1 :: tl) : Int) < (256 : Int) ^ (b0 :: b1 :: tl).length := by
        exact_mod_cast hub
      rw [hval] at h0
      omega

theorem versionFromContent_error_shape (c : Bytes) (e : Err)
    (h : versionFromContent c = .error e) : e = .InvalidVersion := by
  unfold versionFromContent at h
  split at h <;> simp_all

theorem CmsVersion.disc_lt_128 (v : CmsVersion) : v.disc < 128 := by
  cases v <;> decide

theorem CmsVersion.disc_le_5 (v : CmsVersion) : v.disc ≤ 5 := by
  cases v <;> decide

/-- Modelled from the spec (sections 4.5 and 7): the encode entry point for
`SignerInfo` detects a caller-constructed invariant violation
pre-emptively: a present `signed_attrs` or `unsigned_attrs` that is an
empty set violates `SET SIZE (1..MAX)` (RFC 5652 `SignedAttributes` /
`UnsignedAttributes`); for every other value encoding succeeds with the
canonical bytes. -/
def encodeSignerInfoChecked (si : SignerInfo) : Except Err Bytes :=
  if si.signed_attrs = some [] ∨ si.unsigned_attrs = some [] then
    .error .InvariantViolation
  else .ok (encSignerInfo si)

/-- Modelled from the spec (section 9 design note): `der_cmp` on raw
encoded byte strings is the unsigned lexicographic comparison of the
canonical encoded bytes. -/
def derCmpBytes (x y : Bytes) : Ordering := byteCmp x y

/-- The hand-written `ValueOrd` impl for `SignerIdentifier` in
`signed_data.rs`: serialize both values (`to_vec`; total in the model) and
compare the encodings with `der_cmp`. -/
def SignerIdentifier.value_cmp (a b : SignerIdentifier) : Except Err Ordering :=
  .ok (derCmpBytes (encSignerIdentifier a) (encSignerIdentifier b))

/-- The hand-written `ValueOrd` impl for `CmsVersion` in `content_info.rs`:
`Equal` on equality, otherwise the derived structural (discriminant)
order decides `Less` or `Greater`. -/
def CmsVersion.value_cmp (a b : CmsVersion) : Except Err Ordering :=
  if a = b then .ok Ordering.eq
  else if a.disc < b.disc then .ok Ordering.lt
  else .ok Ordering.gt

/-! ## Concrete example values -/

def exAlg : AlgorithmIdentifier := ⟨[42], none⟩

def exSignerInfo : SignerInfo :=
  ⟨.V1, .IssuerAndSerialNumber ⟨⟨0x30, [49, 0]⟩, [9]⟩, ⟨[42], none⟩, none,
    ⟨[43], some ⟨5, []⟩⟩, [7, 7], none⟩

def exSignerInfo2 : SignerInfo :=
  { exSignerInfo with
    signed_attrs := some [⟨[2], []⟩, ⟨[1], [⟨4, []⟩, ⟨4, [1]⟩]⟩],
    unsigned_attrs := some [⟨[3], []⟩] }

def badSignerInfo : SignerInfo := { exSignerInfo with signed_attrs := some [] }

def exEncap : EncapsulatedContentInfo := ⟨[3], some ⟨4, [104, 105]⟩⟩

def exContentInfo : ContentInfo := ⟨[42, 1], ⟨0x30, [2, 1, 0]⟩⟩

def exSignedData : SignedData :=
  ⟨.V1, [exAlg], exEncap, none, some [⟨5, [1]⟩], [exSignerInfo]⟩

def exSKI : SubjectKeyIdentifier := ⟨[9, 9]⟩

/-! ## The claims -/

/-- C1: for every valid constructed value of each schema type
(`ContentInfo`, `SignedData`, `EncapsulatedContentInfo`, `SignerInfo`,
`SignerIdentifier`), decoding the DER encoding of the value yields a value
equal to the original: `decode (encode v) = ok v`. -/
theorem C1_round_trip (ci : ContentInfo) (sd : SignedData) (ec : EncapsulatedContentInfo)
    (si : SignerInfo) (sid : SignerIdentifier)
    (hsd : validSignedData sd = true) (hsi : validSignerInfo si = true) :
    decFull decContentInfo (encContentInfo ci) = .ok ci ∧
    decFull decSignedData (encSignedData sd) = .ok sd ∧
    decFull decEncapsulatedContentInfo (encEncapsulatedContentInfo ec) = .ok ec ∧
    decFull decSignerInfo (encSignerInfo si) = .ok si ∧
    decFull decSignerIdentifier (encSignerIdentifier sid) = .ok sid := by
  refine ⟨?_, ?_, ?_, ?_, ?_⟩
  · refine decFull_of_ok _ _ _ ?_
    have h := decContentInfo_rt ci []
    rwa [List.append_nil] at h
  · refine decFull_of_ok _ _ _ ?_
    have h := decSignedData_rt sd [] hsd
    rwa [List.append_nil] at h
  · refine decFull_of_ok _ _ _ ?_
    have h := decEncapsulatedContentInfo_rt ec []
    rwa [List.append_nil] at h
  · exact decFull_of_ok _ _ _ (decSignerInfo_rt_nil si hsi)
  · refine decFull_of_ok _ _ _ ?_
    have h := decSignerIdentifier_rt sid []
    rwa [List.append_nil] at h

/-- Witness for C1 at concrete values. -/
theorem C1_round_trip_witness :
    validSignedData exSignedData = true ∧ validSignerInfo exSignerInfo2 = true ∧
    (decFull decContentInfo (encContentInfo exContentInfo) = .ok exContentInfo ∧
     decFull decSignedData (encSignedData exSignedData) = .ok exSignedData ∧
     decFull decEncapsulatedContentInfo (encEncapsulatedContentInfo exEncap) = .ok exEncap ∧
     decFull decSignerInfo (encSignerInfo exSignerInfo2) = .ok exSignerInfo2 ∧
     decFull decSignerIdentifier (encSignerIdentifier
       (.SubjectKeyIdentifier exSKI)) = .ok (.SubjectKeyIdentifier exSKI)) := by
  refine ⟨by decide, by decide, ?_⟩
  have h := C1_round_trip exContentInfo exSignedData exEncap exSignerInfo2
    (.SubjectKeyIdentifier exSKI) (by decide) (by decide)
  exact h

/-- C2: a SET-OF value whose successive element TLVs contain an adjacent
out-of-order pair fails to decode with `NonCanonicalSetOrder` (shown for
the `SignerInfos` and `DigestAlgorithmIdentifiers` element decoders); and
of two SET-OF value encodings that concatenate permutations of the same
complete element TLVs, two successful decodes force byte-identical inputs
(only the sorted ordering is accepted). -/
theorem C2_set_order :
    (∀ (c : Bytes) (ps : List (Nat × Bytes)), splitTLVs c = .ok ps →
      ordered (ps.map rawTLV) = false →
      decSetContent decSignerInfo c = .error .NonCanonicalSetOrder ∧
      decSetContent decAlgorithmIdentifier c = .error .NonCanonicalSetOrder) ∧
    (∀ (l1 l2 : List Bytes) (vs1 vs2 : List SignerInfo),
      byteOk l1.flatten = true → (∀ r ∈ l1, isFullTLV r = true) → l1.Perm l2 →
      decSetContent decSignerInfo l1.flatten = .ok vs1 →
      decSetContent decSignerInfo l2.flatten = .ok vs2 →
      l1.flatten = l2.flatten) := by
  constructor
  · intro c ps hs hbad
    exact ⟨decSetContent_order_fail _ c ps hs hbad,
      decSetContent_order_fail _ c ps hs hbad⟩
  · intro l1 l2 vs1 vs2 hb hfull hperm h1 h2
    have hb2 : byteOk l2.flatten = true := by
      rw [byteOk_join, List.all_eq_true] at hb ⊢
      intro r hr
      exact hb r (hperm.mem_iff.mpr hr)
    have hfull2 : ∀ r ∈ l2, isFullTLV r = true := fun r hr =>
      hfull r (hperm.mem_iff.mpr hr)
    obtain ⟨ps1, hs1, hm1⟩ := splitTLVs_flatten_full l1 hb hfull
    obtain ⟨ps2, hs2, hm2⟩ := splitTLVs_flatten_full l2 hb2 hfull2
    have ho1 : ordered l1 = true := by
      have h := decSetContent_ok_ordered decSignerInfo _ vs1 ps1 h1 hs1
      rwa [hm1] at h
    have ho2 : ordered l2 = true := by
      have h := decSetContent_ok_ordered decSignerInfo _ vs2 ps2 h2 hs2
      rwa [hm2] at h
    have heq : l1 = l2 :=
      List.eq_of_perm_of_sorted hperm ((ordered_iff_sorted l1).mp ho1)
        ((ordered_iff_sorted l2).mp ho2)
    rw [heq]

/-- Witness for C2 at concrete inputs. -/
theorem C2_set_order_witness :
    (decSetContent decSignerInfo (tlv 4 [2] ++ tlv 4 [1]) =
        .error .NonCanonicalSetOrder ∧
     decSetContent decAlgorithmIdentifier (tlv 4 [2] ++ tlv 4 [1]) =
        .error .NonCanonicalSetOrder) ∧
    List.flatten [encSignerInfo exSignerInfo] =
      List.flatten [encSignerInfo exSignerInfo] :=
  ⟨C2_set_order.1 (tlv 4 [2] ++ tlv 4 [1]) [(4, [2]), (4, [1])] (by decide) (by decide),
   C2_set_order.2 [encSignerInfo exSignerInfo] [encSignerInfo exSignerInfo]
     [exSignerInfo] [exSignerInfo] (by decide) (by decide) (List.Perm.refl _)
     (by decide) (by decide)⟩

/-- C3: encoding is deterministic (equal inputs give byte-identical
output), and the canonical encoding is the only byte string decode accepts
as denoting a value: a successful decode of `b` forces `b` to be exactly
the canonical encoding of the result.  Shown for `SignedData` and
`ContentInfo`. -/
theorem C3_canonical_unique :
    (∀ v w : SignedData, v = w → encSignedData v = encSignedData w) ∧
    (∀ v w : ContentInfo, v = w → encContentInfo v = encContentInfo w) ∧
    (∀ (b : Bytes) (v : SignedData), byteOk b = true →
      decFull decSignedData b = .ok v → b = encSignedData v) ∧
    (∀ (b : Bytes) (v : ContentInfo), byteOk b = true →
      decFull decContentInfo b = .ok v → b = encContentInfo v) := by
  refine ⟨fun v w h => by rw [h], fun v w h => by rw [h], ?_, ?_⟩
  · intro b v hb h
    have h2 := decFull_ok _ b v h
    have h3 := (decSignedData_can b v [] hb h2).1
    rwa [List.append_nil] at h3
  · intro b v hb h
    have h3 := decContentInfo_can b v [] hb (decFull_ok _ b v h)
    rwa [List.append_nil] at h3

/-- Witness for C3 at concrete inputs. -/
theorem C3_canonical_unique_witness :
    encSignedData exSignedData = encSignedData exSignedData ∧
    encContentInfo exContentInfo = encContentInfo exContentInfo :=
  ⟨C3_canonical_unique.2.2.1 (encSignedData exSignedData) exSignedData
     (by decide) (by decide),
   C3_canonical_unique.2.2.2 (encContentInfo exContentInfo) exContentInfo
     (by decide) (by decide)⟩

/-- C4: decoding a `CmsVersion` succeeds exactly for DER INTEGER values in
{0..5}, producing the corresponding variant `V0`..`V5`; for every integer
outside {0..5} the decode fails with `InvalidVersion`. -/
theorem C4_version_range (c : Bytes) (rest : Bytes)
    (hmin : minimalIntContent c = true) (hb : byteOk c = true) :
    (0 ≤ intContentVal c ∧ intContentVal c ≤ 5 →
      ∃ v : CmsVersion, decCmsVersion (tlv 2 c ++ rest) = .ok (v, rest) ∧
        (v.disc : Int) = intContentVal c) ∧
    (¬ (0 ≤ intContentVal c ∧ intContentVal c ≤ 5) →
      decCmsVersion (tlv 2 c ++ rest) = .error .InvalidVersion) := by
  have hred : decCmsVersion (tlv 2 c ++ rest) =
      eBind (versionFromContent c) (fun v => .ok (v, rest)) := by
    unfold decCmsVersion
    rw [readTLV_tlv, eBind_ok]
    try simp only []
    repeat rw [if_pos trivial]
    rw [if_pos hmin]
  constructor
  · rintro ⟨h0, h5⟩
    obtain ⟨d, hd128, hc, hval⟩ := minimal_val_small c hmin hb h0 h5
    subst hc
    rw [hval] at h5 h0
    have hd5 : d ≤ 5 := by exact_mod_cast h5
    rw [hred]
    interval_cases d
    · exact ⟨.V0, rfl, by rw [hval]; rfl⟩
    · exact ⟨.V1, rfl, by rw [hval]; rfl⟩
    · exact ⟨.V2, rfl, by rw [hval]; rfl⟩
    · exact ⟨.V3, rfl, by rw [hval]; rfl⟩
    · exact ⟨.V4, rfl, by rw [hval]; rfl⟩
    · exact ⟨.V5, rfl, by rw [hval]; rfl⟩
  · intro hout
    rw [hred]
    cases hv : versionFromContent c with
    | ok v' =>
      exfalso
      have hc := versionFromContent_ok_shape c v' hv
      subst hc
      apply hout
      rw [intContentVal_single _ (CmsVersion.disc_lt_128 v')]
      have h5 := CmsVersion.disc_le_5 v'
      constructor
      · exact_mod_cast Nat.zero_le _
      · exact_mod_cast h5
    | error e =>
      rw [versionFromContent_error_shape c e hv]
      rfl

/-- Witness for C4 at concrete inputs. -/
theorem C4_version_range_witness :
    (∃ v : CmsVersion, decCmsVersion (tlv 2 [3] ++ []) = .ok (v, []) ∧
      (v.disc : Int) = intContentVal [3]) ∧
    decCmsVersion (tlv 2 [6] ++ []) = .error .InvalidVersion :=
  ⟨(C4_version_range [3] [] (by decide) (by decide)).1 (by decide),
   (C4_version_range [6] [] (by decide) (by decide)).2 (by decide)⟩

/-- C5: the encoder emits the EXPLICIT context-0 constructed tag (`0xA0`)
for `ContentInfo.content` and a present `EncapsulatedContentInfo.econtent`,
and the value octets of that outer tag are exactly the inner value's own
complete TLV, whose leading octet is the preserved inner tag. -/
theorem C5_explicit_tag (ci : ContentInfo) (ec : EncapsulatedContentInfo) (a : AnyV)
    (he : ec.econtent = some a) :
    encContentInfo ci = tlv 0x30 (tlv 6 ci.content_type ++
      (0xA0 :: (encodeLen (encAnyV ci.content).length ++ encAnyV ci.content))) ∧
    (encAnyV ci.content).head? = some ci.content.tag ∧
    encEncapsulatedContentInfo ec = tlv 0x30 (tlv 6 ec.econtent_type ++
      (0xA0 :: (encodeLen (encAnyV a).length ++ encAnyV a))) ∧
    (encAnyV a).head? = some a.tag := by
  refine ⟨rfl, by simp [encAnyV, tlv], ?_, by simp [encAnyV, tlv]⟩
  unfold encEncapsulatedContentInfo encEncapsulatedContentInfoContent
  rw [he]
  rfl

/-- Witness for C5 at concrete values. -/
theorem C5_explicit_tag_witness :
    encContentInfo exContentInfo = tlv 0x30 (tlv 6 exContentInfo.content_type ++
      (0xA0 :: (encodeLen (encAnyV exContentInfo.content).length ++
        encAnyV exContentInfo.content))) ∧
    (encAnyV exContentInfo.content).head? = some exContentInfo.content.tag ∧
    encEncapsulatedContentInfo exEncap = tlv 0x30 (tlv 6 exEncap.econtent_type ++
      (0xA0 :: (encodeLen (encAnyV ⟨4, [104, 105]⟩).length ++
        encAnyV ⟨4, [104, 105]⟩))) ∧
    (encAnyV ⟨4, [104, 105]⟩).head? = some (4 : Nat) :=
  C5_explicit_tag exContentInfo exEncap ⟨4, [104, 105]⟩ (by decide)

/-- C6: encoding a `SignerIdentifier.SubjectKeyIdentifier` and decoding
yields the `SubjectKeyIdentifier` variant back, never
`IssuerAndSerialNumber`; the two variants carry distinct leading tags
(SEQUENCE `0x30` vs context `0xA0`), and the decoder's dispatch on the
leading tag is unambiguous for every input. -/
theorem C6_choice_dispatch :
    (∀ (s : SubjectKeyIdentifier) (r : Bytes),
      decSignerIdentifier (encSignerIdentifier (.SubjectKeyIdentifier s) ++ r) =
        .ok (.SubjectKeyIdentifier s, r)) ∧
    (∀ i : IssuerAndSerialNumber,
      (encSignerIdentifier (.IssuerAndSerialNumber i)).head? = some 0x30) ∧
    (∀ s : SubjectKeyIdentifier,
      (encSignerIdentifier (.SubjectKeyIdentifier s)).head? = some 0xA0) ∧
    (∀ (b : Bytes) (v : SignerIdentifier) (r : Bytes),
      decSignerIdentifier b = .ok (v, r) →
      (b.head? = some 0x30 → ∃ i, v = .IssuerAndSerialNumber i) ∧
      (b.head? = some 0xA0 → ∃ s, v = .SubjectKeyIdentifier s)) := by
  refine ⟨fun s r => decSignerIdentifier_rt (.SubjectKeyIdentifier s) r,
    fun i => by simp [encSignerIdentifier, encIssuerAndSerialNumber, tlv],
    fun s => by simp [encSignerIdentifier, tlv], ?_⟩
  intro b v r h
  constructor
  · intro hh
    unfold decSignerIdentifier at h
    rw [if_pos hh] at h
    unfold eBind at h
    split at h
    · exact absurd h (by simp)
    · rename_i p hp
      try simp only [] at h
      simp only [Except.ok.injEq, Prod.mk.injEq] at h
      exact ⟨p.1, h.1.symm⟩
  · intro hh
    unfold decSignerIdentifier at h
    rw [if_neg (by rw [hh]; simp), if_pos hh] at h
    unfold eBind at h
    split at h
    · exact absurd h (by simp)
    · rename_i p hp
      try simp only [] at h
      split at h
      · exact absurd h (by simp)
      · rename_i q hq
        try simp only [] at h
        split at h
        · simp only [Except.ok.injEq, Prod.mk.injEq] at h
          exact ⟨q.1, h.1.symm⟩
        · exact absurd h (by simp)

/-- Witness for C6 at concrete inputs. -/
theorem C6_choice_dispatch_witness :
    decSignerIdentifier (encSignerIdentifier (.SubjectKeyIdentifier exSKI)) =
      .ok (.SubjectKeyIdentifier exSKI, []) ∧
    (∃ s, (SignerIdentifier.SubjectKeyIdentifier exSKI) = .SubjectKeyIdentifier s) := by
  constructor
  · have h := C6_choice_dispatch.1 exSKI []
    rwa [List.append_nil] at h
  · exact (C6_choice_dispatch.2.2.2
      (encSignerIdentifier (.SubjectKeyIdentifier exSKI))
      (.SubjectKeyIdentifier exSKI) [] (by decide)).2 (by decide)

/-- C7: the checked encode entry point fails exactly when the
caller-constructed value violates the schema invariant — a present but
empty `SET SIZE (1..MAX)` attribute set — and succeeds with the canonical
bytes on every invariant-respecting value. -/
theorem C7_encode_invariant :
    (∀ si : SignerInfo, (∃ e, encodeSignerInfoChecked si = .error e) ↔
      (si.signed_attrs = some [] ∨ si.unsigned_attrs = some [])) ∧
    (∀ si : SignerInfo, si.signed_attrs ≠ some [] → si.unsigned_attrs ≠ some [] →
      encodeSignerInfoChecked si = .ok (encSignerInfo si)) := by
  constructor
  · intro si
    unfold encodeSignerInfoChecked
    by_cases hc : si.signed_attrs = some [] ∨ si.unsigned_attrs = some []
    · rw [if_pos hc]
      exact ⟨fun _ => hc, fun _ => ⟨.InvariantViolation, rfl⟩⟩
    · rw [if_neg hc]
      exact ⟨fun hee => absurd hee.choose_spec (by simp), fun hcc => absurd hcc hc⟩
  · intro si h1 h2
    unfold encodeSignerInfoChecked
    rw [if_neg (by rintro (hh | hh); exacts [h1 hh, h2 hh])]

/-- Witness for C7 at concrete values. -/
theorem C7_encode_invariant_witness :
    (∃ e, encodeSignerInfoChecked badSignerInfo = .error e) ∧
    encodeSignerInfoChecked exSignerInfo = .ok (encSignerInfo exSignerInfo) :=
  ⟨(C7_encode_invariant.1 badSignerInfo).mpr (by decide),
   C7_encode_invariant.2 exSignerInfo (by decide) (by decide)⟩

/-- C8: each absent OPTIONAL field contributes zero bytes to the encoding:
no placeholder tag, length or value octets appear. -/
theorem C8_absent_optional (sd : SignedData) (si : SignerInfo)
    (ec : EncapsulatedContentInfo)
    (h1 : sd.certificates = none) (h2 : sd.crls = none)
    (h3 : si.signed_attrs = none) (h4 : si.unsigned_attrs = none)
    (h5 : ec.econtent = none) :
    encSignedData sd = tlv 0x30
      (encCmsVersion sd.version ++
       tlv 0x31 (setValue (sd.digest_algorithms.map encAlgorithmIdentifier)) ++
       encEncapsulatedContentInfo sd.encap_content_info ++
       tlv 0x31 (setValue (sd.signer_infos.map encSignerInfo))) ∧
    encSignerInfo si = tlv 0x30
      (encCmsVersion si.version ++ encSignerIdentifier si.sid ++
       encAlgorithmIdentifier si.digest_alg ++
       encAlgorithmIdentifier si.signature_algorithm ++
       tlv 4 si.signature) ∧
    encEncapsulatedContentInfo ec = tlv 0x30 (tlv 6 ec.econtent_type) := by
  refine ⟨?_, ?_, ?_⟩
  · unfold encSignedData encSignedDataContent
    rw [h1, h2]
    simp [encOptSet]
  · unfold encSignerInfo encSignerInfoContent
    rw [h3, h4]
    simp [encOptSet]
  · unfold encEncapsulatedContentInfo encEncapsulatedContentInfoContent
    rw [h5]
    simp [encOptEContent]

/-- Witness for C8 at concrete values. -/
theorem C8_absent_optional_witness :
    encSignedData ⟨.V1, [exAlg], ⟨[3], none⟩, none, none, [exSignerInfo]⟩ = tlv 0x30
      (encCmsVersion .V1 ++
       tlv 0x31 (setValue ([exAlg].map encAlgorithmIdentifier)) ++
       encEncapsulatedContentInfo ⟨[3], none⟩ ++
       tlv 0x31 (setValue ([exSignerInfo].map encSignerInfo))) ∧
    encSignerInfo exSignerInfo = tlv 0x30
      (encCmsVersion exSignerInfo.version ++ encSignerIdentifier exSignerInfo.sid ++
       encAlgorithmIdentifier exSignerInfo.digest_alg ++
       encAlgorithmIdentifier exSignerInfo.signature_algorithm ++
       tlv 4 exSignerInfo.signature) ∧
    encEncapsulatedContentInfo ⟨[3], none⟩ = tlv 0x30 (tlv 6 [3]) :=
  C8_absent_optional ⟨.V1, [exAlg], ⟨[3], none⟩, none, none, [exSignerInfo]⟩
    exSignerInfo ⟨[3], none⟩ rfl rfl rfl rfl rfl

/-- C9: the hand-written `ValueOrd` for `SignerIdentifier` never fails and
returns exactly the unsigned lexicographic comparison of the two canonical
DER encodings (ordering by encoded bytes, not per-field structure); its
`eq` answer coincides with equality of the encodings. -/
theorem C9_signer_identifier_value_cmp (a b : SignerIdentifier) :
    ∃ o, SignerIdentifier.value_cmp a b = .ok o ∧
      o = byteCmp (encSignerIdentifier a) (encSignerIdentifier b) ∧
      (o = .eq ↔ encSignerIdentifier a = encSignerIdentifier b) :=
  ⟨byteCmp (encSignerIdentifier a) (encSignerIdentifier b), rfl, rfl,
    byteCmp_eq_iff _ _⟩

/-- C10: the hand-written `ValueOrd` for `CmsVersion` always returns `ok`,
answers `eq` exactly on equal values, and coincides with the unsigned
lexicographic order of the two DER INTEGER encodings, although computed by
structural discriminant comparison. -/
theorem C10_cms_version_value_cmp (a b : CmsVersion) :
    (CmsVersion.value_cmp a b).isOk = true ∧
    (CmsVersion.value_cmp a b = .ok .eq ↔ a = b) ∧
    CmsVersion.value_cmp a b = .ok (byteCmp (encCmsVersion a) (encCmsVersion b)) := by
  cases a <;> cases b <;> decide

end CMS
